import Mathlib

/-!
# Verification of the ledger graph-statistics core

Shallow embedding of the Rust sources:
* `src/vertex.rs`        — `Vertex` and `Vertex::from_str`
* `src/database.rs`      — `load_vertices_from_database`
* `src/graph/vertex_with_stats.rs` — `VertexWithStats`
* `src/graph/mod.rs`     — `find_inward_references`, `find_root_depth`,
  `check_valid_id`, the three statistics, `Graph::new`, `Graph::walk_and_analyze`

Conventions of the embedding:
* `usize` is modelled as `Nat`; where the code relies on machine width
  (the `usize::MAX` sentinel, wrapping of `sum::<usize>()`) we use the
  explicit constant `usizeMax = 2 ^ 64 - 1` and reduction `% 2 ^ 64`.
* `f64` results of the statistics are modelled as exact rationals `ℚ`
  (the divisions the code performs, applied to exactly-converted operands).
* A Rust function mutating `&mut [VertexWithStats]` and returning
  `Result<(), E>` is modelled as a function returning the final state of
  the slice *paired with* the result, so that mutations performed before
  an early `?`-return stay observable, exactly as they do through the
  `&mut` reference.
* Indexing `graph[i]` whose bound is already checked is modelled with
  `List.getD _ _ default`, the `default` being the `Default::default()`
  of the corresponding Rust type; `List.set` models in-place update.
* Files are modelled as the list of their lines (`BufRead::lines`).
-/

namespace Ledger

/-- `usize::MAX` on the 64-bit targets the crate is built for. -/
def usizeMax : Nat := 2 ^ 64 - 1

/-- `u32::MAX`. -/
def u32Max : Nat := 2 ^ 32 - 1

/-- `src/vertex.rs`: `Vertex { left, right, timestamp }`. -/
structure Vertex where
  left : Option Nat
  right : Option Nat
  timestamp : Nat
deriving DecidableEq, Repr

/-- `#[derive(Default)]` on `Vertex`. -/
instance : Inhabited Vertex := ⟨⟨none, none, 0⟩⟩

/-- `src/graph/vertex_with_stats.rs`: `VertexWithStats`. -/
structure VertexWithStats where
  vertex : Vertex
  visited : Bool
  inbounds : List Nat
  root_depth : Nat
deriving DecidableEq, Repr

/-- `impl Default for VertexWithStats` (`root_depth = usize::MAX`). -/
instance : Inhabited VertexWithStats := ⟨⟨default, false, [], usizeMax⟩⟩

/-- `impl From<Vertex> for VertexWithStats`. -/
def VertexWithStats.fromVertex (v : Vertex) : VertexWithStats :=
  { vertex := v, visited := false, inbounds := [], root_depth := usizeMax }

/-- The error kinds raised by `src/graph/mod.rs` (as `anyhow` messages there). -/
inductive GraphError
  | EmptyGraph
  | InvalidVertexId (id : Nat)
  | RootIdUsedAsReference
deriving DecidableEq, Repr

/-- `Graph::new`: wrap every vertex with fresh statistics state. -/
def Graph.new (vertices : List Vertex) : List VertexWithStats :=
  vertices.map VertexWithStats.fromVertex

/-- `check_valid_id` from `src/graph/mod.rs`. -/
def check_valid_id (id max_id : Nat) : Except GraphError Unit :=
  if max_id < id then .error (.InvalidVertexId id)
  else if id = 0 then .error .RootIdUsedAsReference
  else .ok ()

/-- In-place update of one slot of the slice (`graph[idx].… = …`). -/
def modifyAt (g : List VertexWithStats) (idx : Nat)
    (f : VertexWithStats → VertexWithStats) : List VertexWithStats :=
  g.set idx (f (g.getD idx default))

/-- `graph[idx].inbounds.push id`. -/
def pushInbound (g : List VertexWithStats) (idx id : Nat) : List VertexWithStats :=
  modifyAt g idx (fun v => { v with inbounds := v.inbounds ++ [id] })

/-- The body of the `for i in 0..graph.len()` loop of `find_inward_references`,
as a recursion over the `n` indices still to process, `i` being the next one.
Mutations performed before a failing ID check stay in the returned state, as
they do through the `&mut` slice in the source. -/
def invertLoop (max_id : Nat) : List VertexWithStats → Nat → Nat →
    List VertexWithStats × Except GraphError Unit
  | g, _, 0 => (g, .ok ())
  | g, i, n + 1 =>
    let current_id := i + 1
    match (g.getD i default).vertex.left with
    | some id =>
      match check_valid_id id max_id with
      | .error e => (g, .error e)
      | .ok _ =>
        let g₁ := pushInbound g (id - 1) current_id
        match (g₁.getD i default).vertex.right with
        | some id₂ =>
          match check_valid_id id₂ max_id with
          | .error e => (g₁, .error e)
          | .ok _ => invertLoop max_id (pushInbound g₁ (id₂ - 1) current_id) (i + 1) n
        | none => invertLoop max_id g₁ (i + 1) n
    | none =>
      match (g.getD i default).vertex.right with
      | some id₂ =>
        match check_valid_id id₂ max_id with
        | .error e => (g, .error e)
        | .ok _ => invertLoop max_id (pushInbound g (id₂ - 1) current_id) (i + 1) n
      | none => invertLoop max_id g (i + 1) n

/-- `find_inward_references` from `src/graph/mod.rs`. -/
def find_inward_references (graph : List VertexWithStats) :
    List VertexWithStats × Except GraphError Unit :=
  if graph.isEmpty then (graph, .error .EmptyGraph)
  else invertLoop graph.length graph 0 graph.length

/-- How many vertices carry `visited = true`. -/
def countVis (g : List VertexWithStats) : Nat :=
  List.countP (fun v => v.visited) g

/-- The BFS loop of `find_root_depth`: a FIFO queue of
`(path_length, vertex_id)` pairs, popped at the front, extended at the back.
The source computes `max_id = graph.len()` once before the loop; since the
loop never changes the length of the slice, that value equals `g.length` at
every iteration, which is what the ID check below uses.
Terminates because a step either newly marks a vertex visited or shrinks
the queue. -/
def bfs (g : List VertexWithStats) (q : List (Nat × Nat)) :
    List VertexWithStats × Except GraphError Unit :=
  match q with
  | [] => (g, .ok ())
  | (path_len, vertex_id) :: rest =>
    match hchk : check_valid_id vertex_id g.length with
    | .error e => (g, .error e)
    | .ok _ =>
      let vertex_idx := vertex_id - 1
      let v := g.getD vertex_idx default
      if hv : v.visited then
        bfs g rest
      else
        let v' : VertexWithStats :=
          { v with visited := true,
                   root_depth := if path_len < v.root_depth then path_len else v.root_depth }
        bfs (g.set vertex_idx v')
          (rest ++ v.inbounds.map (fun id => (path_len + 1, id)))
termination_by (g.length - countVis g, q.length)
decreasing_by
  · apply Prod.Lex.right
    exact Nat.lt_succ_self _
  · apply Prod.Lex.left
    have hb : vertex_id - 1 < g.length := by
      unfold check_valid_id at hchk
      split at hchk
      · exact absurd hchk (by simp)
      · split at hchk
        · exact absurd hchk (by simp)
        · omega
    have hold : (g.getD (vertex_id - 1) default).visited = false := by
      simp only [Bool.not_eq_true] at hv
      exact hv
    have hset : ∀ (l : List VertexWithStats) (idx : Nat) (w : VertexWithStats),
        idx < l.length → (l.getD idx default).visited = false → w.visited = true →
        countVis (l.set idx w) = countVis l + 1 := by
      intro l
      induction l with
      | nil =>
        intro idx w hidx
        simp at hidx
      | cons x xs ih =>
        intro idx w hidx h1 h2
        cases idx with
        | zero =>
          simp only [List.getD_cons_zero] at h1
          simp [countVis, List.countP_cons, List.set, h1, h2]
        | succ k =>
          simp only [List.getD_cons_succ] at h1
          simp only [List.length_cons, Nat.succ_lt_succ_iff] at hidx
          simp only [List.set, countVis, List.countP_cons]
          have hx := ih k w hidx h1 h2
          simp only [countVis] at hx
          omega
    have hfin : ∀ (l : List VertexWithStats) (idx : Nat) (w : VertexWithStats),
        idx < l.length → (l.getD idx default).visited = false → w.visited = true →
        (l.set idx w).length - countVis (l.set idx w) < l.length - countVis l := by
      intro l idx w hidx hf1 hf2
      have hs := hset l idx w hidx hf1 hf2
      have hle : countVis (l.set idx w) ≤ (l.set idx w).length := List.countP_le_length _
      rw [List.length_set] at hle ⊢
      omega
    exact hfin g (vertex_id - 1) _ hb hold rfl

/-- `find_root_depth` from `src/graph/mod.rs`. -/
def find_root_depth (graph : List VertexWithStats) :
    List VertexWithStats × Except GraphError Unit :=
  if graph.isEmpty then (graph, .error .EmptyGraph)
  else bfs graph [(0, 1)]

/-- `Graph::walk_and_analyze`. -/
def walk_and_analyze (g : List VertexWithStats) :
    List VertexWithStats × Except GraphError Unit :=
  match find_inward_references g with
  | (g₁, .error e) => (g₁, .error e)
  | (g₁, .ok _) => find_root_depth g₁

/-- The per-vertex state addressed by a 1-based vertex ID. -/
def entryAt (g : List VertexWithStats) (id : Nat) : VertexWithStats :=
  g.getD (id - 1) default

/-- `visited` flag of the vertex with the given 1-based ID. -/
def visitedAt (g : List VertexWithStats) (id : Nat) : Bool := (entryAt g id).visited

/-- `root_depth` of the vertex with the given 1-based ID. -/
def depthAt (g : List VertexWithStats) (id : Nat) : Nat := (entryAt g id).root_depth

/-- `inbounds` list of the vertex with the given 1-based ID. -/
def inboundsAt (g : List VertexWithStats) (id : Nat) : List Nat := (entryAt g id).inbounds

/-- A path of the given length along the edge structure `E` (each step moves
from a vertex `b` to a member of `E b`; for this program `E` is the inbound
list of the graph under analysis). -/
inductive PathTo (E : Nat → List Nat) : Nat → Nat → Nat → Prop
  | refl (a : Nat) : PathTo E a a 0
  | step {a b c : Nat} {n : Nat} : PathTo E a b n → c ∈ E b → PathTo E a c (n + 1)

/-- A vertex is reachable from `a` when some path ends at it. -/
def ReachableFrom (E : Nat → List Nat) (a v : Nat) : Prop :=
  ∃ n, PathTo E a v n

/-- A concrete fresh two-vertex graph with no references: vertex 2 is
unreachable from the root. -/
def exFresh2 : List VertexWithStats := Graph.new [⟨none, none, 0⟩, ⟨none, none, 0⟩]

/-- The state `find_root_depth` leaves `exFresh2` in. -/
def exFresh2Out : List VertexWithStats :=
  [⟨⟨none, none, 0⟩, true, [], 0⟩, ⟨⟨none, none, 0⟩, false, [], usizeMax⟩]

/-- Wrapping `usize` addition: the `+` the release-mode `sum::<usize>()`
accumulator performs. -/
def usizeAdd (a b : Nat) : Nat := (a + b) % 2 ^ 64

/-- `iter().map(…).sum::<usize>()`. -/
def usizeSum (l : List Nat) : Nat := l.foldl usizeAdd 0

/-- `calc_avg_inbound_ref_per_node` (its `f64` division taken exactly). -/
def calc_avg_inbound_ref_per_node (graph : List VertexWithStats) : ℚ :=
  (usizeSum (graph.map (fun vertex => vertex.inbounds.length)) : ℚ) / (graph.length : ℚ)

/-- `calc_avg_root_depth_per_node` (its `f64` division taken exactly). -/
def calc_avg_root_depth_per_node (graph : List VertexWithStats) : ℚ :=
  (usizeSum (graph.map (fun vertex => vertex.root_depth)) : ℚ) / (graph.length : ℚ)

/-- The `for vertex in graph { depths_cnt[vertex.root_depth] += 1 }` loop of
`calc_avg_nodes_per_root_depth`; `none` models the out-of-bounds indexing
panic. -/
def fillBuckets : List VertexWithStats → List Nat → Option (List Nat)
  | [], depths_cnt => some depths_cnt
  | vertex :: rest, depths_cnt =>
    if vertex.root_depth < depths_cnt.length then
      fillBuckets rest
        (depths_cnt.set vertex.root_depth (depths_cnt.getD vertex.root_depth 0 + 1))
    else none

/-- `calc_avg_nodes_per_root_depth`: bucket vector `vec![0; graph.len()]`,
skip the first bucket, drop empty buckets, average the rest; `none` models
the indexing panic. -/
def calc_avg_nodes_per_root_depth (graph : List VertexWithStats) : Option ℚ :=
  match fillBuckets graph (List.replicate graph.length 0) with
  | none => none
  | some depths_cnt =>
    let kept := (depths_cnt.drop 1).filter (fun depth => 0 < depth)
    some ((usizeSum kept : ℚ) / (kept.length : ℚ))

/-- The immutable `Vertex` fields of the graph. -/
def vertexFields (g : List VertexWithStats) : List Vertex :=
  g.map (fun v => v.vertex)

/-- The pushes the inversion loop performs, while processing source index
`i`, into the inbound list of the vertex at array index `j` (ID `j + 1`):
first the `left` push, then the `right` push. -/
def pushList (vl : List Vertex) (i j : Nat) : List Nat :=
  (if (vl.getD i default).left = some (j + 1) then [i + 1] else []) ++
  (if (vl.getD i default).right = some (j + 1) then [i + 1] else [])

/-- All pushes into array index `j` made while processing source indices
`i, i + 1, …, i + n - 1`, in processing order. -/
def pushesFrom (vl : List Vertex) (i n j : Nat) : List Nat :=
  ((List.range' i n).map (fun k => pushList vl k j)).flatten

/-- A declared reference is in range: at least 1, at most `max_id`. -/
def ValidRef (max_id : Nat) : Option Nat → Prop
  | none => True
  | some id => 1 ≤ id ∧ id ≤ max_id

/-- Both declared references of the vertex at array index `k` are in range. -/
def ValidRefsAt (vl : List Vertex) (max_id k : Nat) : Prop :=
  ValidRef max_id (vl.getD k default).left ∧ ValidRef max_id (vl.getD k default).right

/-- Some vertex of the graph declares `id` as its `left` or `right` parent. -/
def declaredRef (g : List VertexWithStats) (id : Nat) : Prop :=
  ∃ k, k < g.length ∧
    ((g.getD k default).vertex.left = some id ∨ (g.getD k default).vertex.right = some id)

/-- Some vertex of the graph carries `id` in its inbound list. -/
def inboundRef (g : List VertexWithStats) (id : Nat) : Prop :=
  ∃ k, k < g.length ∧ id ∈ (g.getD k default).inbounds

/-- Concrete input for the C7 witness. -/
def exInvG : List VertexWithStats := Graph.new [⟨none, none, 0⟩, ⟨some 1, none, 0⟩]

/-- `exInvG` after one inversion pass. -/
def exInvG1 : List VertexWithStats :=
  [⟨⟨none, none, 0⟩, false, [2], usizeMax⟩, ⟨⟨some 1, none, 0⟩, false, [], usizeMax⟩]

/-- A concrete one-vertex graph whose single reference is in range. -/
def exValid1 : List VertexWithStats := Graph.new [⟨some 1, none, 7⟩]

/-- Rust `char::is_ascii_whitespace`: space, tab, newline, form feed,
carriage return. -/
def isAsciiWhitespace (c : Char) : Bool :=
  c = ' ' || c = '\t' || c = '\n' || c = '\x0c' || c = '\r'

/-- Splitting a character list at every separator (keeping empty pieces,
exactly like `String::split`). -/
def splitChars (p : Char → Bool) : List Char → List Char → List (List Char)
  | [], acc => [acc.reverse]
  | c :: cs, acc =>
    if p c then acc.reverse :: splitChars p cs [] else splitChars p cs (c :: acc)

/-- `str::split_ascii_whitespace`: split at ASCII whitespace and drop the
empty pieces. -/
def splitAsciiWhitespace (s : String) : List String :=
  ((splitChars isAsciiWhitespace s.toList []).filter
      (fun t => !t.isEmpty)).map (fun cs => String.mk cs)

/-- Digit run of an unsigned `FromStr` body. -/
def digitsToNat? (cs : List Char) : Option Nat :=
  if cs.isEmpty then none
  else
    cs.foldl (fun acc c =>
      match acc with
      | none => none
      | some n => if c.isDigit then some (n * 10 + (c.toNat - 48)) else none) (some 0)

/-- Unsigned-integer `FromStr`: optional leading `+`, at least one ASCII
digit, value within the type's range. -/
def parseUnsigned (maxVal : Nat) (s : String) : Option Nat :=
  let cs := s.toList
  let digits :=
    match cs with
    | '+' :: rest => rest
    | _ => cs
  match digitsToNat? digits with
  | none => none
  | some n => if n ≤ maxVal then some n else none

/-- `str::parse::<usize>()`. -/
def parseUsize (s : String) : Option Nat := parseUnsigned usizeMax s

/-- `str::parse::<u32>()`. -/
def parseU32 (s : String) : Option Nat := parseUnsigned u32Max s

/-- The parse failures of `Vertex::from_str` (as `anyhow` messages there). -/
inductive RowError
  | TooManyItems
  | TooFewItems
  | BadLeftId
  | BadRightId
  | BadTimestamp
deriving DecidableEq, Repr

/-- `Vertex::from_str` from `src/vertex.rs`: split into exactly three
whitespace-separated chunks, parse `left`, `right` and `timestamp`, and
normalize a self-referencing ID (equal to `id`) to `None`. -/
def Vertex.from_str (s : String) (id : Nat) : Except RowError Vertex :=
  let chunks := splitAsciiWhitespace s
  if 3 < chunks.length then .error .TooManyItems
  else if chunks.length ≠ 3 then .error .TooFewItems
  else
    match parseUsize (chunks.getD 0 "") with
    | none => .error .BadLeftId
    | some left_id =>
      match parseUsize (chunks.getD 1 "") with
      | none => .error .BadRightId
      | some right_id =>
        match parseU32 (chunks.getD 2 "") with
        | none => .error .BadTimestamp
        | some timestamp =>
          .ok { left := if left_id = id then none else some left_id,
                right := if right_id = id then none else some right_id,
                timestamp := timestamp }

/-- The failures of `load_vertices_from_database` (as `anyhow` errors). -/
inductive LoadError
  | EndOfFile
  | BadCount
  | Row (e : RowError)
  | CountMismatch (actual expected : Nat)
deriving DecidableEq, Repr

/-- The `db_entries.map(convert_maybe_string_to_node).try_collect()` pass.
`line_number` is the 0-based index of the line in the file (the count line
is line 0, already consumed), so the first data row arrives with
`line_number = 1` and each row is parsed with `id = line_number + 1`. -/
def parseRows : List String → Nat → Except RowError (List Vertex)
  | [], _ => .ok []
  | s :: rest, line_number =>
    match Vertex.from_str s (line_number + 1) with
    | .error e => .error e
    | .ok v =>
      match parseRows rest (line_number + 1) with
      | .error e => .error e
      | .ok vs => .ok (v :: vs)

/-- `load_vertices_from_database` from `src/database.rs`: read the declared
count from the first line, parse every following line into a `Vertex`, check
the count, and prepend the synthetic root vertex (`Vertex::default()`). -/
def load_vertices_from_database (lines : List String) : Except LoadError (List Vertex) :=
  match lines with
  | [] => .error .EndOfFile
  | countLine :: dataLines =>
    match parseUsize countLine with
    | none => .error .BadCount
    | some expected_entries =>
      match parseRows dataLines 1 with
      | .error e => .error (.Row e)
      | .ok vertices_from_db =>
        if vertices_from_db.length ≠ expected_entries then
          .error (.CountMismatch vertices_from_db.length expected_entries)
        else .ok ((default : Vertex) :: vertices_from_db)

/-- The spec's concrete scenario input: declared count 3, data rows
`"0 1 2"`, `"1 0 3"`, `"2 0 1"`. -/
def exScenarioLines : List String := ["3", "0 1 2", "1 0 3", "2 0 1"]

/-- What the loader actually produces for the scenario: the data rows get
vertex IDs 2, 3 and 4, so none of the `0` references is a self-reference. -/
def exScenarioVertices : List Vertex :=
  [⟨none, none, 0⟩, ⟨some 0, some 1, 2⟩, ⟨some 1, some 0, 3⟩, ⟨some 2, some 0, 1⟩]

/-- Invariant of the BFS loop for shortest-path correctness, over a fixed
edge structure `E` on IDs `1..N`. -/
structure BfsInv (N : Nat) (E : Nat → List Nat) (g : List VertexWithStats)
    (q : List (Nat × Nat)) : Prop where
  hN : 1 ≤ N
  hNmax : N ≤ usizeMax
  hlen : g.length = N
  hE : ∀ v, 1 ≤ v → v ≤ N → inboundsAt g v = E v
  hEvalid : ∀ v, 1 ≤ v → v ≤ N → ∀ u ∈ E v, 1 ≤ u ∧ u ≤ N
  hq_path : ∀ p ∈ q, 1 ≤ p.2 ∧ p.2 ≤ N ∧ PathTo E 1 p.2 p.1
  hq_sorted : List.Pairwise (fun a b : Nat × Nat => a.1 ≤ b.1) q
  hq_level : ∀ p ∈ q, ∀ r ∈ q, p.1 ≤ r.1 + 1
  hq_cnt : ∀ p ∈ q, p.1 ≤ countVis g
  hroot : visitedAt g 1 = true
  hvis : ∀ v, 1 ≤ v → v ≤ N → visitedAt g v = true →
    PathTo E 1 v (depthAt g v) ∧ (∀ m, PathTo E 1 v m → depthAt g v ≤ m)
  hvis_cnt : ∀ v, 1 ≤ v → v ≤ N → visitedAt g v = true → depthAt g v < countVis g
  hsucc : ∀ v, 1 ≤ v → v ≤ N → visitedAt g v = true →
    ∀ u ∈ E v, visitedAt g u = true ∨ (depthAt g v + 1, u) ∈ q
  hunvis : ∀ v, 1 ≤ v → v ≤ N → visitedAt g v = false → depthAt g v = usizeMax

/-- `exInvG1` after depth labeling: both vertices visited, depths 0 and 1. -/
def exInvRes : List VertexWithStats :=
  [⟨⟨none, none, 0⟩, true, [2], 0⟩, ⟨⟨some 1, none, 0⟩, true, [], 1⟩]

/-! ## Theorems -/

theorem check_valid_id_ok {id max_id : Nat} {u : Unit}
    (h : check_valid_id id max_id = .ok u) : 1 ≤ id ∧ id ≤ max_id := by
  unfold check_valid_id at h
  split at h
  · exact absurd h (by simp)
  · split at h
    · exact absurd h (by simp)
    · omega

theorem check_valid_id_sub_lt {id max_id : Nat} {u : Unit}
    (h : check_valid_id id max_id = .ok u) : id - 1 < max_id := by
  have := check_valid_id_ok h
  omega

theorem countVis_le_length (g : List VertexWithStats) : countVis g ≤ g.length :=
  List.countP_le_length _

theorem countVis_set_true (g : List VertexWithStats) (idx : Nat) (a : VertexWithStats)
    (hidx : idx < g.length) (hold : (g.getD idx default).visited = false)
    (hnew : a.visited = true) : countVis (g.set idx a) = countVis g + 1 := by
  induction g generalizing idx with
  | nil => simp at hidx
  | cons x xs ih =>
    cases idx with
    | zero =>
      simp only [List.getD_cons_zero] at hold
      simp [countVis, List.countP_cons, List.set, hold, hnew]
    | succ k =>
      simp only [List.getD_cons_succ] at hold
      simp only [List.length_cons, Nat.succ_lt_succ_iff] at hidx
      simp only [List.set, countVis, List.countP_cons]
      have := ih k hidx hold
      simp only [countVis] at this
      omega

theorem set_visited_measure_lt (g : List VertexWithStats) (idx : Nat) (a : VertexWithStats)
    (hidx : idx < g.length) (hold : (g.getD idx default).visited = false)
    (hnew : a.visited = true) :
    (g.set idx a).length - countVis (g.set idx a) < g.length - countVis g := by
  have h1 := countVis_set_true g idx a hidx hold hnew
  have h2 := countVis_le_length (g.set idx a)
  rw [List.length_set] at h2 ⊢
  omega

theorem getD_set_self {α : Type} [Inhabited α] (l : List α) (i : Nat) (a : α)
    (h : i < l.length) : (l.set i a).getD i default = a := by
  induction l generalizing i with
  | nil => simp at h
  | cons x xs ih =>
    cases i with
    | zero => simp
    | succ k =>
      simp only [List.length_cons, Nat.succ_lt_succ_iff] at h
      simpa using ih k h

theorem getD_set_ne {α : Type} [Inhabited α] (l : List α) (i j : Nat) (a : α)
    (h : i ≠ j) : (l.set i a).getD j default = l.getD j default := by
  induction l generalizing i j with
  | nil => simp
  | cons x xs ih =>
    cases i with
    | zero =>
      cases j with
      | zero => exact absurd rfl h
      | succ m => simp
    | succ k =>
      cases j with
      | zero => simp
      | succ m =>
        simp only [List.set, List.getD_cons_succ]
        exact ih k m (by omega)

/-- Once a vertex is visited, BFS never touches its slot again: neither its
`visited` flag nor its `root_depth` nor anything else in its slot changes. -/
theorem bfs_frozen (g : List VertexWithStats) (q : List (Nat × Nat)) :
    ∀ idx, (g.getD idx default).visited = true →
      (bfs g q).1.getD idx default = g.getD idx default := by
  induction g, q using bfs.induct with
  | case1 g =>
    intro idx _
    rw [bfs]
  | case2 g path_len vertex_id rest e hchk =>
    intro idx _
    rw [bfs]
    split
    · rfl
    · rename_i a heq
      rw [hchk] at heq
      exact Except.noConfusion heq
  | case3 g path_len vertex_id rest a hchk vertex_idx v hv ih =>
    intro idx h2
    rw [bfs]
    split
    · rfl
    · dsimp only
      split
      · exact ih idx h2
      · rename_i hnv
        exact absurd hv hnv
  | case4 g path_len vertex_id rest a hchk vertex_idx v hv v' ih =>
    intro idx h2
    rw [bfs]
    split
    · rfl
    · dsimp only
      split
      · rename_i hyes
        exact absurd hyes hv
      · rename_i hnv
        have hne : vertex_idx ≠ idx := by
          intro he
          apply hnv
          have he' : vertex_id - 1 = idx := he
          rw [he']
          exact h2
        have hfr := ih idx (by rw [getD_set_ne _ _ _ _ hne]; exact h2)
        rw [getD_set_ne _ _ _ _ hne] at hfr
        exact hfr

theorem isEmpty_false_of_pos {g : List VertexWithStats} (h : 0 < g.length) :
    g.isEmpty = false := by
  cases g with
  | nil => simp at h
  | cons x xs => rfl

theorem check_valid_id_one {n : Nat} (h : 1 ≤ n) : check_valid_id 1 n = .ok () := by
  unfold check_valid_id
  rw [if_neg (by omega), if_neg (by omega)]

/-- The just-visited vertex's slot survives the rest of the BFS run. -/
theorem bfs_set_entry (g : List VertexWithStats) (w : VertexWithStats)
    (q : List (Nat × Nat)) (idx : Nat) (hidx : idx < g.length)
    (hw : w.visited = true) :
    (bfs (g.set idx w) q).1.getD idx default = w := by
  rw [bfs_frozen _ _ idx (by rw [getD_set_self g idx w hidx]; exact hw)]
  exact getD_set_self g idx w hidx

/-- C8: for every graph with at least one vertex whose root slot is still
unvisited (as it is in every state this program hands to `find_root_depth`),
the vertex with ID 1 (array index 0) ends with `root_depth = 0` and
`visited = true`, whether the call returns success or an error reached later
in the traversal. -/
theorem C8_root_always_labeled (g : List VertexWithStats) (h0 : 0 < g.length)
    (hroot : (g.getD 0 default).visited = false) :
    ((find_root_depth g).1.getD 0 default).visited = true ∧
      ((find_root_depth g).1.getD 0 default).root_depth = 0 := by
  rw [find_root_depth, if_neg (by rw [isEmpty_false_of_pos h0]; exact Bool.false_ne_true)]
  rw [bfs]
  split
  · rename_i e heq
    rw [check_valid_id_one h0] at heq
    exact Except.noConfusion heq
  · dsimp only
    split
    · rename_i hyes
      exact absurd (show (g.getD 0 default).visited = true from hyes)
        (by rw [hroot]; exact Bool.false_ne_true)
    · rename_i hnv
      simp only [Nat.sub_self]
      rw [bfs_set_entry g _ _ 0 h0 rfl]
      refine ⟨rfl, ?_⟩
      by_cases hd : 0 < (g.getD 0 default).root_depth
      · simp only [if_pos hd]
      · simp only [if_neg hd]
        omega

/-- C8 witness: a concrete one-vertex graph. -/
theorem C8_witness :
    ((find_root_depth (Graph.new [⟨none, none, 5⟩])).1.getD 0 default).visited = true ∧
      ((find_root_depth (Graph.new [⟨none, none, 5⟩])).1.getD 0 default).root_depth = 0 :=
  C8_root_always_labeled (Graph.new [⟨none, none, 5⟩]) (by decide) (by decide)

/-- C10: both traversals, applied to the zero-vertex graph, return the
`EmptyGraph` error and leave the (empty) state untouched. -/
theorem C10_empty_graph :
    find_inward_references [] = ([], .error .EmptyGraph) ∧
      find_root_depth [] = ([], .error .EmptyGraph) := by
  constructor
  · rfl
  · rw [find_root_depth]
    rfl

/-- Prefixing a path with one edge out of `a`. -/
theorem PathTo.head_step {E : Nat → List Nat} {a u w : Nat} {n : Nat}
    (hu : u ∈ E a) (hp : PathTo E u w n) : PathTo E a w (n + 1) := by
  induction hp with
  | refl => exact PathTo.step (PathTo.refl a) hu
  | step hp hc ih => exact PathTo.step ih hc

theorem getD_mem {α : Type} [Inhabited α] (l : List α) (i : Nat) (h : i < l.length) :
    l.getD i default ∈ l := by
  rw [List.getD_eq_getElem l default h]
  exact List.getElem_mem h

/-- Updating a slot with a record carrying the same `inbounds` leaves every
slot's `inbounds` unchanged. -/
theorem inbounds_set_keep (g : List VertexWithStats) (idx : Nat) (w : VertexWithStats)
    (hinb : w.inbounds = (g.getD idx default).inbounds) :
    ∀ j, ((g.set idx w).getD j default).inbounds = (g.getD j default).inbounds := by
  intro j
  by_cases h : idx = j
  · subst h
    by_cases hlt : idx < g.length
    · rw [getD_set_self g idx w hlt]
      exact hinb
    · rw [List.set_eq_of_length_le (by omega)]
  · rw [getD_set_ne _ _ _ _ h]

theorem inboundsAt_set_keep (g : List VertexWithStats) (idx : Nat) (w : VertexWithStats)
    (hinb : w.inbounds = (g.getD idx default).inbounds) :
    inboundsAt (g.set idx w) = inboundsAt g := by
  funext u
  unfold inboundsAt entryAt
  exact inbounds_set_keep g idx w hinb (u - 1)

/-- BFS never changes the number of vertices. -/
theorem bfs_length (g : List VertexWithStats) (q : List (Nat × Nat)) :
    (bfs g q).1.length = g.length := by
  induction g, q using bfs.induct with
  | case1 g => rw [bfs]
  | case2 g path_len vertex_id rest e hchk =>
    rw [bfs]
    split
    · rfl
    · rename_i a heq
      rw [hchk] at heq
      exact Except.noConfusion heq
  | case3 g path_len vertex_id rest a hchk vertex_idx v hv ih =>
    rw [bfs]
    split
    · rfl
    · dsimp only
      split
      · exact ih
      · rename_i hnv
        exact absurd hv hnv
  | case4 g path_len vertex_id rest a hchk vertex_idx v hv v' ih =>
    rw [bfs]
    split
    · rfl
    · dsimp only
      split
      · rename_i hyes
        exact absurd hyes hv
      · have hrec := ih
        rw [List.length_set] at hrec
        exact hrec

/-- BFS never changes any `inbounds` list. -/
theorem bfs_inbounds (g : List VertexWithStats) (q : List (Nat × Nat)) :
    ∀ j, ((bfs g q).1.getD j default).inbounds = (g.getD j default).inbounds := by
  induction g, q using bfs.induct with
  | case1 g => intro j; rw [bfs]
  | case2 g path_len vertex_id rest e hchk =>
    intro j
    rw [bfs]
    split
    · rfl
    · rename_i a heq
      rw [hchk] at heq
      exact Except.noConfusion heq
  | case3 g path_len vertex_id rest a hchk vertex_idx v hv ih =>
    intro j
    rw [bfs]
    split
    · rfl
    · dsimp only
      split
      · exact ih j
      · rename_i hnv
        exact absurd hv hnv
  | case4 g path_len vertex_id rest a hchk vertex_idx v hv v' ih =>
    intro j
    rw [bfs]
    split
    · rfl
    · dsimp only
      split
      · rename_i hyes
        exact absurd hyes hv
      · have hrec := ih j
        rw [inbounds_set_keep g vertex_idx v' rfl j] at hrec
        exact hrec

/-- Slots that no queued vertex can reach along inbound edges are never
written by the BFS loop. -/
theorem bfs_unreached_untouched (g : List VertexWithStats) (q : List (Nat × Nat)) :
    ∀ idx, (∀ p ∈ q, ¬ ∃ n, PathTo (inboundsAt g) p.2 (idx + 1) n) →
      (bfs g q).1.getD idx default = g.getD idx default := by
  induction g, q using bfs.induct with
  | case1 g => intro idx _; rw [bfs]
  | case2 g path_len vertex_id rest e hchk =>
    intro idx _
    rw [bfs]
    split
    · rfl
    · rename_i a heq
      rw [hchk] at heq
      exact Except.noConfusion heq
  | case3 g path_len vertex_id rest a hchk vertex_idx v hv ih =>
    intro idx hq
    rw [bfs]
    split
    · rfl
    · dsimp only
      split
      · exact ih idx (fun p hp => hq p (List.mem_cons_of_mem _ hp))
      · rename_i hnv
        exact absurd hv hnv
  | case4 g path_len vertex_id rest a hchk vertex_idx v hv v' ih =>
    intro idx hq
    rw [bfs]
    split
    · rfl
    · dsimp only
      split
      · rename_i hyes
        exact absurd hyes hv
      · rename_i hnv
        have hvalid := check_valid_id_ok hchk
        have hne : vertex_idx ≠ idx := by
          intro he
          apply hq (path_len, vertex_id) (List.mem_cons_self _ _)
          refine ⟨0, ?_⟩
          have he' : vertex_id - 1 = idx := he
          have hsu : vertex_id = idx + 1 := by omega
          rw [hsu]
          exact PathTo.refl _
        have hEkeep : inboundsAt (g.set vertex_idx v') = inboundsAt g :=
          inboundsAt_set_keep g vertex_idx v' rfl
        have hq' : ∀ p ∈ (rest ++ List.map (fun id => (path_len + 1, id)) v.inbounds),
            ¬ ∃ n, PathTo (inboundsAt (g.set vertex_idx v')) p.2 (idx + 1) n := by
          intro p hp
          rw [hEkeep]
          rcases List.mem_append.mp hp with hrest | hnew
          · exact hq p (List.mem_cons_of_mem _ hrest)
          · rcases List.mem_map.mp hnew with ⟨u, hu, rfl⟩
            rintro ⟨n, hpath⟩
            apply hq (path_len, vertex_id) (List.mem_cons_self _ _)
            refine ⟨n + 1, ?_⟩
            refine PathTo.head_step ?_ hpath
            show u ∈ inboundsAt g vertex_id
            unfold inboundsAt entryAt
            exact hu
        have hrec := ih idx hq'
        rw [getD_set_ne _ _ _ _ hne] at hrec
        exact hrec

theorem countVis_lt_of_unvisited (g : List VertexWithStats) (idx : Nat)
    (hidx : idx < g.length) (h : (g.getD idx default).visited = false) :
    countVis g < g.length := by
  have h1 := countVis_set_true g idx ⟨default, true, [], 0⟩ hidx h rfl
  have h2 := countVis_le_length (g.set idx ⟨default, true, [], 0⟩)
  rw [List.length_set] at h2
  omega

/-- Invariant run of the BFS loop: every queued path length is bounded by the
number of visited vertices, every visited vertex's `root_depth` stays below
that number, and every unvisited vertex keeps the `usize::MAX` sentinel. -/
theorem bfs_vis_inv (g : List VertexWithStats) (q : List (Nat × Nat)) :
    g.length ≤ usizeMax →
    (∀ p ∈ q, p.1 ≤ countVis g) →
    (∀ idx, idx < g.length → (g.getD idx default).visited = true →
        (g.getD idx default).root_depth < countVis g) →
    (∀ idx, idx < g.length → (g.getD idx default).visited = false →
        (g.getD idx default).root_depth = usizeMax) →
    ∀ idx, idx < g.length →
      (((bfs g q).1.getD idx default).visited = true →
          ((bfs g q).1.getD idx default).root_depth < countVis (bfs g q).1) ∧
      (((bfs g q).1.getD idx default).visited = false →
          ((bfs g q).1.getD idx default).root_depth = usizeMax) := by
  induction g, q using bfs.induct with
  | case1 g =>
    intro _ _ hvis hunv idx hidx
    rw [bfs]
    exact ⟨hvis idx hidx, hunv idx hidx⟩
  | case2 g path_len vertex_id rest e hchk =>
    intro _ _ hvis hunv idx hidx
    rw [bfs]
    split
    · exact ⟨hvis idx hidx, hunv idx hidx⟩
    · rename_i a heq
      rw [hchk] at heq
      exact Except.noConfusion heq
  | case3 g path_len vertex_id rest a hchk vertex_idx v hv ih =>
    intro hmax hq hvis hunv idx hidx
    rw [bfs]
    split
    · rename_i e heq
      rw [hchk] at heq
      exact Except.noConfusion heq
    · dsimp only
      split
      · exact ih hmax (fun p hp => hq p (List.mem_cons_of_mem _ hp)) hvis hunv idx hidx
      · rename_i hnv
        exact absurd hv hnv
  | case4 g path_len vertex_id rest a hchk vertex_idx v hv v' ih =>
    intro hmax hq hvis hunv idx hidx
    rw [bfs]
    split
    · rename_i e heq
      rw [hchk] at heq
      exact Except.noConfusion heq
    · dsimp only
      split
      · rename_i hyes
        exact absurd hyes hv
      · rename_i hnv
        have hlt : vertex_idx < g.length := check_valid_id_sub_lt hchk
        have hnv' : (g.getD vertex_idx default).visited = false := by
          have := hnv
          simp only [Bool.not_eq_true] at this
          exact this
        have hv'vis : v'.visited = true := rfl
        have hcnt : countVis (g.set vertex_idx v') = countVis g + 1 :=
          countVis_set_true g vertex_idx v' hlt hnv' hv'vis
        have hcntlt : countVis g < g.length :=
          countVis_lt_of_unvisited g vertex_idx hlt hnv'
        have hplen : path_len ≤ countVis g := hq (path_len, vertex_id) (List.mem_cons_self _ _)
        have hvroot : v.root_depth = usizeMax := hunv vertex_idx hlt hnv'
        have hv'root : v'.root_depth = path_len := by
          show (if path_len < v.root_depth then path_len else v.root_depth) = path_len
          rw [hvroot, if_pos (by omega)]
        have h1 : (g.set vertex_idx v').length ≤ usizeMax := by
          rw [List.length_set]
          exact hmax
        have h2 : ∀ p ∈ (rest ++ List.map (fun id => (path_len + 1, id)) v.inbounds),
            p.1 ≤ countVis (g.set vertex_idx v') := by
          intro p hp
          rw [hcnt]
          rcases List.mem_append.mp hp with hrest | hnew
          · have := hq p (List.mem_cons_of_mem _ hrest)
            omega
          · rcases List.mem_map.mp hnew with ⟨u, hu, rfl⟩
            dsimp only
            omega
        have h3 : ∀ j, j < (g.set vertex_idx v').length →
            ((g.set vertex_idx v').getD j default).visited = true →
            ((g.set vertex_idx v').getD j default).root_depth < countVis (g.set vertex_idx v') := by
          intro j hj _
          rw [hcnt]
          by_cases hje : vertex_idx = j
          · subst hje
            rw [getD_set_self g vertex_idx v' hlt, hv'root]
            omega
          · rw [getD_set_ne _ _ _ _ hje] at *
            rename_i hjvis
            have := hvis j (by rw [List.length_set] at hj; exact hj) hjvis
            omega
        have h4 : ∀ j, j < (g.set vertex_idx v').length →
            ((g.set vertex_idx v').getD j default).visited = false →
            ((g.set vertex_idx v').getD j default).root_depth = usizeMax := by
          intro j hj hjvis
          by_cases hje : vertex_idx = j
          · subst hje
            rw [getD_set_self g vertex_idx v' hlt] at hjvis
            rw [hv'vis] at hjvis
            exact Bool.noConfusion hjvis
          · rw [getD_set_ne _ _ _ _ hje] at hjvis ⊢
            exact hunv j (by rw [List.length_set] at hj; exact hj) hjvis
        exact ih h1 h2 h3 h4 idx (by rw [List.length_set]; exact hidx)

theorem exFresh2_run : find_root_depth exFresh2 = (exFresh2Out, .ok ()) := by
  rw [find_root_depth]
  norm_num [exFresh2, Graph.new, VertexWithStats.fromVertex]
  rw [bfs]
  norm_num [check_valid_id, usizeMax]
  rw [bfs]
  rfl

theorem exFresh2_no_edges : ∀ b, inboundsAt exFresh2 b = [] := by
  intro b
  unfold inboundsAt entryAt exFresh2 Graph.new VertexWithStats.fromVertex
  rcases b with _ | _ | n
  · rfl
  · rfl
  · rcases n with _ | m
    · rfl
    · rfl

theorem exFresh2_unreachable_2 : ¬ ReachableFrom (inboundsAt exFresh2) 1 2 := by
  rintro ⟨n, hp⟩
  cases hp with
  | step hp hc =>
    rw [exFresh2_no_edges] at hc
    exact List.not_mem_nil _ hc

/-- C9: on a fresh graph (all `visited = false`, all `root_depth` the
`usize::MAX` sentinel) on which `find_root_depth` succeeds, every vertex
unreachable from vertex ID 1 along inbound edges still has
`root_depth = usize::MAX` and `visited = false`; and a vertex is visited
exactly when its `root_depth` ended below the sentinel. -/
theorem C9_unreachable_keep_sentinel (g g' : List VertexWithStats)
    (hfresh : ∀ v ∈ g, v.visited = false ∧ v.root_depth = usizeMax)
    (hmax : g.length ≤ usizeMax)
    (hok : find_root_depth g = (g', .ok ())) :
    (∀ id, 1 ≤ id → id ≤ g.length →
        ¬ ReachableFrom (inboundsAt g) 1 id →
        visitedAt g' id = false ∧ depthAt g' id = usizeMax) ∧
    (∀ id, 1 ≤ id → id ≤ g.length →
        (visitedAt g' id = true ↔ depthAt g' id < usizeMax)) := by
  by_cases hemp : g.isEmpty
  · rw [find_root_depth, if_pos hemp] at hok
    exact absurd (congrArg Prod.snd hok) (by simp)
  · rw [find_root_depth, if_neg hemp] at hok
    have hg' : (bfs g [(0, 1)]).1 = g' := by rw [hok]
    have hfreshD : ∀ idx, idx < g.length →
        (g.getD idx default).visited = false ∧ (g.getD idx default).root_depth = usizeMax :=
      fun idx hidx => hfresh _ (getD_mem g idx hidx)
    constructor
    · intro id h1 h2 hunreach
      have hunq : ∀ p ∈ [((0 : Nat), (1 : Nat))],
          ¬ ∃ n, PathTo (inboundsAt g) p.2 ((id - 1) + 1) n := by
        intro p hp
        rcases List.mem_singleton.mp hp with rfl
        rw [Nat.sub_add_cancel h1]
        exact hunreach
      have huntouched := bfs_unreached_untouched g [(0, 1)] (id - 1) hunq
      rw [hg'] at huntouched
      unfold visitedAt depthAt entryAt
      rw [huntouched]
      exact hfreshD (id - 1) (by omega)
    · intro id h1 h2
      have hinv := bfs_vis_inv g [(0, 1)] hmax
        (by intro p hp; rcases List.mem_singleton.mp hp with rfl; exact Nat.zero_le _)
        (by intro idx hidx hv; rw [(hfreshD idx hidx).1] at hv; exact Bool.noConfusion hv)
        (by intro idx hidx _; exact (hfreshD idx hidx).2)
        (id - 1) (by omega)
      rw [hg'] at hinv
      have hlen : g'.length = g.length := by rw [← hg', bfs_length]
      have hcnt : countVis g' ≤ usizeMax := by
        have := countVis_le_length g'
        omega
      unfold visitedAt depthAt entryAt
      constructor
      · intro hv
        have := hinv.1 hv
        omega
      · intro hd
        by_cases hv : (g'.getD (id - 1) default).visited = true
        · exact hv
        · have := hinv.2 (by simpa using hv)
          omega

/-- C9 witness: in the concrete two-vertex graph with no references, vertex 2
keeps the sentinel and stays unvisited. -/
theorem C9_witness : visitedAt exFresh2Out 2 = false ∧ depthAt exFresh2Out 2 = usizeMax :=
  (C9_unreachable_keep_sentinel exFresh2 exFresh2Out
      (by decide)
      (by decide)
      exFresh2_run).1
    2 (by norm_num) (by norm_num [exFresh2, Graph.new]) exFresh2_unreachable_2

theorem usizeSum_eq_sum_mod (l : List Nat) : usizeSum l = l.sum % 2 ^ 64 := by
  have key : ∀ (l : List Nat) (a : Nat), a < 2 ^ 64 →
      l.foldl usizeAdd a = (a + l.sum) % 2 ^ 64 := by
    intro l
    induction l with
    | nil =>
      intro a ha
      simp only [List.foldl_nil, List.sum_nil, Nat.add_zero]
      omega
    | cons x xs ih =>
      intro a ha
      rw [List.foldl_cons, List.sum_cons]
      show xs.foldl usizeAdd ((a + x) % 2 ^ 64) = (a + (x + xs.sum)) % 2 ^ 64
      rw [ih ((a + x) % 2 ^ 64) (Nat.mod_lt _ (by norm_num))]
      rw [Nat.mod_add_mod]
      ring_nf
  unfold usizeSum
  rw [key l 0 (by norm_num)]
  simp

theorem fillBuckets_isSome (vs : List VertexWithStats) (acc : List Nat) :
    (fillBuckets vs acc).isSome = true ↔ ∀ v ∈ vs, v.root_depth < acc.length := by
  induction vs generalizing acc with
  | nil => simp [fillBuckets]
  | cons x xs ih =>
    by_cases hx : x.root_depth < acc.length
    · rw [fillBuckets, if_pos hx, ih]
      simp only [List.length_set, List.mem_cons]
      constructor
      · intro h v hv
        rcases hv with rfl | hv
        · exact hx
        · exact h v hv
      · intro h v hv
        exact h v (Or.inr hv)
    · rw [fillBuckets, if_neg hx]
      simp only [Option.isSome_none, Bool.false_eq_true, false_iff]
      intro h
      exact hx (h x (List.mem_cons_self _ _))

/-- C5: `calc_avg_nodes_per_root_depth` returns a value exactly when every
vertex's `root_depth` is in bounds for the bucket vector (strictly below the
vertex count); on any analyzed fresh graph that kept a vertex unreachable
from the root — which retains the `usize::MAX` sentinel — the indexing is
out of bounds and the computation panics (`none`) instead of returning a
number. -/
theorem C5_avg_nodes_panics :
    (∀ g : List VertexWithStats,
        (calc_avg_nodes_per_root_depth g).isSome = true ↔
          ∀ v ∈ g, v.root_depth < g.length) ∧
    (∀ g g' : List VertexWithStats,
        (∀ v ∈ g, v.visited = false ∧ v.root_depth = usizeMax) →
        g.length ≤ usizeMax →
        find_root_depth g = (g', .ok ()) →
        (∃ id, 1 ≤ id ∧ id ≤ g.length ∧ ¬ ReachableFrom (inboundsAt g) 1 id) →
        calc_avg_nodes_per_root_depth g' = none) := by
  have part1 : ∀ g : List VertexWithStats,
      (calc_avg_nodes_per_root_depth g).isSome = true ↔
        ∀ v ∈ g, v.root_depth < g.length := by
    intro g
    have hfb := fillBuckets_isSome g (List.replicate g.length 0)
    rw [List.length_replicate] at hfb
    unfold calc_avg_nodes_per_root_depth
    rcases hfill : fillBuckets g (List.replicate g.length 0) with _ | depths_cnt
    · rw [hfill] at hfb
      simp only [Option.isSome_none, Bool.false_eq_true, false_iff] at hfb
      exact ⟨fun h => absurd h (by simp), fun hall => absurd hall hfb⟩
    · rw [hfill] at hfb
      simp only [Option.isSome_some, true_iff] at hfb
      exact ⟨fun _ => hfb, fun _ => rfl⟩
  refine ⟨part1, ?_⟩
  intro g g' hfresh hmax hok ⟨id, h1, h2, hunreach⟩
  by_cases hemp : g.isEmpty
  · rw [find_root_depth, if_pos hemp] at hok
    exact absurd (congrArg Prod.snd hok) (by simp)
  · rw [find_root_depth, if_neg hemp] at hok
    have hg' : (bfs g [(0, 1)]).1 = g' := by rw [hok]
    have hlen : g'.length = g.length := by rw [← hg', bfs_length]
    have hunq : ∀ p ∈ [((0 : Nat), (1 : Nat))],
        ¬ ∃ n, PathTo (inboundsAt g) p.2 ((id - 1) + 1) n := by
      intro p hp
      rcases List.mem_singleton.mp hp with rfl
      rw [Nat.sub_add_cancel h1]
      exact hunreach
    have huntouched := bfs_unreached_untouched g [(0, 1)] (id - 1) hunq
    rw [hg'] at huntouched
    have hidx : id - 1 < g'.length := by omega
    have hdepth : (g'.getD (id - 1) default).root_depth = usizeMax := by
      rw [huntouched]
      exact (hfresh _ (getD_mem g (id - 1) (by omega))).2
    have hbad : ¬ ∀ v ∈ g', v.root_depth < g'.length := by
      intro hall
      have := hall _ (getD_mem g' (id - 1) hidx)
      rw [hdepth] at this
      omega
    exact Option.not_isSome_iff_eq_none.mp (fun hs => hbad ((part1 g').mp hs))

/-- C5 witness: the concrete analyzed two-vertex graph with an unreachable
vertex makes `calc_avg_nodes_per_root_depth` panic. -/
theorem C5_witness : calc_avg_nodes_per_root_depth exFresh2Out = none :=
  C5_avg_nodes_panics.2 exFresh2 exFresh2Out (by decide) (by decide) exFresh2_run
    ⟨2, by norm_num, by decide, exFresh2_unreachable_2⟩

/-- C6: `calc_avg_root_depth_per_node` divides the plain sum of all
`root_depth` values (reduced modulo `2 ^ 64`, the wrap of release-mode
`usize` addition) by the vertex count; vertices the BFS never reached
contribute their `usize::MAX` sentinel verbatim to that sum. -/
theorem C6_avg_depth_formula :
    (∀ g : List VertexWithStats,
        calc_avg_root_depth_per_node g =
          (((g.map (fun v => v.root_depth)).sum % 2 ^ 64 : Nat) : ℚ) / (g.length : ℚ)) ∧
    (∀ g g' : List VertexWithStats, ∀ id : Nat,
        (∀ v ∈ g, v.visited = false ∧ v.root_depth = usizeMax) →
        find_root_depth g = (g', .ok ()) →
        1 ≤ id → id ≤ g.length →
        ¬ ReachableFrom (inboundsAt g) 1 id →
        depthAt g' id = usizeMax) := by
  constructor
  · intro g
    unfold calc_avg_root_depth_per_node
    rw [usizeSum_eq_sum_mod]
  · intro g g' id hfresh hok h1 h2 hunreach
    by_cases hemp : g.isEmpty
    · rw [find_root_depth, if_pos hemp] at hok
      exact absurd (congrArg Prod.snd hok) (by simp)
    · rw [find_root_depth, if_neg hemp] at hok
      have hg' : (bfs g [(0, 1)]).1 = g' := by rw [hok]
      have hunq : ∀ p ∈ [((0 : Nat), (1 : Nat))],
          ¬ ∃ n, PathTo (inboundsAt g) p.2 ((id - 1) + 1) n := by
        intro p hp
        rcases List.mem_singleton.mp hp with rfl
        rw [Nat.sub_add_cancel h1]
        exact hunreach
      have huntouched := bfs_unreached_untouched g [(0, 1)] (id - 1) hunq
      rw [hg'] at huntouched
      unfold depthAt entryAt
      rw [huntouched]
      exact (hfresh _ (getD_mem g (id - 1) (by omega))).2

/-- C6 witness: on the concrete analyzed two-vertex graph, the unreachable
vertex 2 contributes the sentinel to the summed depths. -/
theorem C6_witness : depthAt exFresh2Out 2 = usizeMax :=
  C6_avg_depth_formula.2 exFresh2 exFresh2Out 2 (by decide) exFresh2_run
    (by norm_num) (by decide) exFresh2_unreachable_2

theorem check_valid_id_of_bounds {id max_id : Nat} (h1 : 1 ≤ id) (h2 : id ≤ max_id) :
    check_valid_id id max_id = .ok () := by
  unfold check_valid_id
  rw [if_neg (by omega), if_neg (by omega)]

theorem check_valid_id_err {id max_id : Nat} {e : GraphError}
    (h : check_valid_id id max_id = .error e) :
    (e = .InvalidVertexId id ∧ max_id < id) ∨ (e = .RootIdUsedAsReference ∧ id = 0) := by
  unfold check_valid_id at h
  split at h
  · rename_i hlt
    exact Or.inl ⟨(Except.error.injEq _ _).mp h.symm, hlt⟩
  · split at h
    · rename_i hz
      exact Or.inr ⟨(Except.error.injEq _ _).mp h.symm, hz⟩
    · exact Except.noConfusion h

theorem map_vertex_getD (g : List VertexWithStats) (i : Nat) :
    (vertexFields g).getD i default = (g.getD i default).vertex := by
  unfold vertexFields
  induction g generalizing i with
  | nil => rfl
  | cons x xs ih =>
    cases i with
    | zero => rfl
    | succ k => simpa using ih k

theorem length_pushInbound (g : List VertexWithStats) (idx id : Nat) :
    (pushInbound g idx id).length = g.length := by
  unfold pushInbound modifyAt
  rw [List.length_set]

theorem pushInbound_getD_ne (g : List VertexWithStats) (idx id j : Nat) (h : idx ≠ j) :
    (pushInbound g idx id).getD j default = g.getD j default := by
  unfold pushInbound modifyAt
  exact getD_set_ne _ _ _ _ h

theorem pushInbound_getD_self (g : List VertexWithStats) (idx id : Nat)
    (h : idx < g.length) :
    (pushInbound g idx id).getD idx default =
      { g.getD idx default with
        inbounds := (g.getD idx default).inbounds ++ [id] } := by
  unfold pushInbound modifyAt
  exact getD_set_self _ _ _ h

theorem pushInbound_vertex (g : List VertexWithStats) (idx id j : Nat) :
    ((pushInbound g idx id).getD j default).vertex = (g.getD j default).vertex := by
  by_cases h : idx = j
  · subst h
    by_cases hlt : idx < g.length
    · rw [pushInbound_getD_self g idx id hlt]
    · unfold pushInbound modifyAt
      rw [List.set_eq_of_length_le (by omega)]
  · rw [pushInbound_getD_ne g idx id j h]

theorem pushInbound_visited (g : List VertexWithStats) (idx id j : Nat) :
    ((pushInbound g idx id).getD j default).visited = (g.getD j default).visited := by
  by_cases h : idx = j
  · subst h
    by_cases hlt : idx < g.length
    · rw [pushInbound_getD_self g idx id hlt]
    · unfold pushInbound modifyAt
      rw [List.set_eq_of_length_le (by omega)]
  · rw [pushInbound_getD_ne g idx id j h]

theorem pushInbound_root_depth (g : List VertexWithStats) (idx id j : Nat) :
    ((pushInbound g idx id).getD j default).root_depth = (g.getD j default).root_depth := by
  by_cases h : idx = j
  · subst h
    by_cases hlt : idx < g.length
    · rw [pushInbound_getD_self g idx id hlt]
    · unfold pushInbound modifyAt
      rw [List.set_eq_of_length_le (by omega)]
  · rw [pushInbound_getD_ne g idx id j h]

theorem pushInbound_inb (g : List VertexWithStats) (idx id j : Nat) (hj : j < g.length) :
    ((pushInbound g idx id).getD j default).inbounds =
      (g.getD j default).inbounds ++ (if idx = j then [id] else []) := by
  by_cases h : idx = j
  · subst h
    rw [pushInbound_getD_self g idx id hj, if_pos rfl]
  · rw [pushInbound_getD_ne g idx id j h, if_neg h, List.append_nil]

theorem vertexFields_pushInbound (g : List VertexWithStats) (idx id : Nat) :
    vertexFields (pushInbound g idx id) = vertexFields g := by
  apply List.ext_getElem
  · unfold vertexFields
    rw [List.length_map, List.length_map, length_pushInbound]
  · intro i h1 h2
    have hlen : i < (pushInbound g idx id).length := by
      unfold vertexFields at h1
      rw [List.length_map] at h1
      exact h1
    have hlen2 : i < g.length := by
      rw [length_pushInbound] at hlen
      exact hlen
    have e1 : (vertexFields (pushInbound g idx id)).getD i default =
        (vertexFields (pushInbound g idx id))[i] :=
      List.getD_eq_getElem _ _ h1
    have e2 : (vertexFields g).getD i default = (vertexFields g)[i] :=
      List.getD_eq_getElem _ _ h2
    rw [← e1, ← e2, map_vertex_getD, map_vertex_getD, pushInbound_vertex]

theorem pushesFrom_succ (vl : List Vertex) (i n j : Nat) :
    pushesFrom vl i (n + 1) j = pushList vl i j ++ pushesFrom vl (i + 1) n j := by
  unfold pushesFrom
  rw [List.range'_succ i n 1, List.map_cons, List.flatten_cons]

theorem pushesFrom_zero (vl : List Vertex) (i j : Nat) : pushesFrom vl i 0 j = [] := rfl

/-- Successful run of the inversion loop: when every reference of the indices
still to process is in range, the loop succeeds, preserves length and all
fields except `inbounds`, and appends to each slot `j` exactly the pushes
recorded by `pushesFrom`. -/
theorem invertLoop_spec (M : Nat) (g : List VertexWithStats) (i n : Nat) :
    M ≤ g.length →
    (∀ k, i ≤ k → k < i + n → ValidRefsAt (vertexFields g) M k) →
    ∃ g', invertLoop M g i n = (g', .ok ()) ∧ g'.length = g.length ∧
      ∀ j, (g'.getD j default).vertex = (g.getD j default).vertex ∧
        (g'.getD j default).visited = (g.getD j default).visited ∧
        (g'.getD j default).root_depth = (g.getD j default).root_depth ∧
        (j < g.length →
          (g'.getD j default).inbounds =
            (g.getD j default).inbounds ++ pushesFrom (vertexFields g) i n j) := by
  induction g, i, n using invertLoop.induct M with
  | case1 g i =>
    intro _ _
    refine ⟨g, rfl, rfl, ?_⟩
    intro j
    refine ⟨rfl, rfl, rfl, fun _ => ?_⟩
    rw [pushesFrom_zero, List.append_nil]
  | case2 g i n id hleft e hchk =>
    intro hM hvalid
    have hva := (hvalid i (Nat.le_refl i) (by omega)).1
    rw [map_vertex_getD, hleft] at hva
    rw [check_valid_id_of_bounds hva.1 hva.2] at hchk
    exact Except.noConfusion hchk
  | case3 g i n cid id hleft a hchk1 g₁ id₂ hright e hchk2 =>
    intro hM hvalid
    have hva := (hvalid i (Nat.le_refl i) (by omega)).2
    rw [map_vertex_getD] at hva
    rw [pushInbound_vertex g _ _ i] at hright
    rw [hright] at hva
    rw [check_valid_id_of_bounds hva.1 hva.2] at hchk2
    exact Except.noConfusion hchk2
  | case4 g i n cid id hleft a hchk1 g₁ id₂ hright a₂ hchk2 ih =>
    intro hM hvalid
    have hright' : (g.getD i default).vertex.right = some id₂ := by
      rw [← pushInbound_vertex g (id - 1) cid i]
      exact hright
    have hva := hvalid i (Nat.le_refl i) (by omega)
    rw [ValidRefsAt, map_vertex_getD, hleft, hright'] at hva
    have hlen₁ : g₁.length = g.length := length_pushInbound g _ _
    have hlen₂ : (pushInbound g₁ (id₂ - 1) cid).length = g.length := by
      rw [length_pushInbound]
      exact hlen₁
    have hvf₂ : vertexFields (pushInbound g₁ (id₂ - 1) cid) = vertexFields g := by
      rw [vertexFields_pushInbound, vertexFields_pushInbound]
    rcases ih (by rw [hlen₂]; exact hM)
        (fun k hk1 hk2 => by rw [hvf₂]; exact hvalid k (by omega) (by omega))
      with ⟨g', hrun, hlen, hfields⟩
    have hstep : invertLoop M g i (n + 1) = invertLoop M (pushInbound g₁ (id₂ - 1) cid) (i + 1) n := by
      conv_lhs => rw [invertLoop]
      simp only [hleft, hchk1, hright, hchk2]
    refine ⟨g', by rw [hstep]; exact hrun, by rw [hlen, hlen₂], ?_⟩
    intro j
    obtain ⟨e1, e2, e3, e4⟩ := hfields j
    have t1 : ((pushInbound g₁ (id₂ - 1) cid).getD j default).vertex = (g.getD j default).vertex := by
      rw [pushInbound_vertex, pushInbound_vertex]
    have t2 : ((pushInbound g₁ (id₂ - 1) cid).getD j default).visited = (g.getD j default).visited := by
      rw [pushInbound_visited, pushInbound_visited]
    have t3 : ((pushInbound g₁ (id₂ - 1) cid).getD j default).root_depth = (g.getD j default).root_depth := by
      rw [pushInbound_root_depth, pushInbound_root_depth]
    refine ⟨e1.trans t1, e2.trans t2, e3.trans t3, fun hj => ?_⟩
    rw [e4 (by rw [hlen₂]; exact hj), hvf₂, pushesFrom_succ]
    rw [pushInbound_inb g₁ (id₂ - 1) cid j (by rw [hlen₁]; exact hj),
      pushInbound_inb g (id - 1) cid j hj]
    have hpl : pushList (vertexFields g) i j =
        (if id - 1 = j then [cid] else []) ++ (if id₂ - 1 = j then [cid] else []) := by
      unfold pushList
      rw [map_vertex_getD, hleft, hright']
      have c1 : (some id = some (j + 1)) = (id - 1 = j) := by
        simp only [Option.some.injEq, eq_iff_iff]
        have := hva.1.1
        constructor
        · omega
        · omega
      have c2 : (some id₂ = some (j + 1)) = (id₂ - 1 = j) := by
        simp only [Option.some.injEq, eq_iff_iff]
        have := hva.2.1
        constructor
        · omega
        · omega
      simp only [c1, c2]
    rw [hpl]
    simp only [List.append_assoc]
  | case5 g i n cid id hleft a hchk1 g₁ hright ih =>
    intro hM hvalid
    have hright' : (g.getD i default).vertex.right = none := by
      rw [← pushInbound_vertex g (id - 1) cid i]
      exact hright
    have hva := hvalid i (Nat.le_refl i) (by omega)
    rw [ValidRefsAt, map_vertex_getD, hleft] at hva
    have hlen₁ : g₁.length = g.length := length_pushInbound g _ _
    have hvf₁ : vertexFields g₁ = vertexFields g := vertexFields_pushInbound g _ _
    rcases ih (by rw [hlen₁]; exact hM)
        (fun k hk1 hk2 => by rw [hvf₁]; exact hvalid k (by omega) (by omega))
      with ⟨g', hrun, hlen, hfields⟩
    have hstep : invertLoop M g i (n + 1) = invertLoop M g₁ (i + 1) n := by
      conv_lhs => rw [invertLoop]
      simp only [hleft, hchk1, hright]
    refine ⟨g', by rw [hstep]; exact hrun, by rw [hlen, hlen₁], ?_⟩
    intro j
    obtain ⟨e1, e2, e3, e4⟩ := hfields j
    refine ⟨e1.trans (pushInbound_vertex g _ _ j), e2.trans (pushInbound_visited g _ _ j),
            e3.trans (pushInbound_root_depth g _ _ j), fun hj => ?_⟩
    rw [e4 (by rw [hlen₁]; exact hj), hvf₁, pushesFrom_succ]
    rw [pushInbound_inb g (id - 1) cid j hj]
    have hpl : pushList (vertexFields g) i j = (if id - 1 = j then [cid] else []) := by
      unfold pushList
      rw [map_vertex_getD, hleft, hright']
      have c1 : (some id = some (j + 1)) = (id - 1 = j) := by
        simp only [Option.some.injEq, eq_iff_iff]
        have := hva.1.1
        constructor
        · omega
        · omega
      rw [if_neg (show ¬((none : Option Nat) = some (j + 1)) from fun h => Option.noConfusion h),
        List.append_nil]
      simp only [c1]
    rw [hpl]
    simp only [List.append_assoc]
  | case6 g i n hleft id hright e hchk =>
    intro hM hvalid
    have hva := (hvalid i (Nat.le_refl i) (by omega)).2
    rw [map_vertex_getD, hright] at hva
    rw [check_valid_id_of_bounds hva.1 hva.2] at hchk
    exact Except.noConfusion hchk
  | case7 g i n cid hleft id hright a hchk ih =>
    intro hM hvalid
    have hva := hvalid i (Nat.le_refl i) (by omega)
    rw [ValidRefsAt, map_vertex_getD, hleft, hright] at hva
    have hlen₁ : (pushInbound g (id - 1) cid).length = g.length := length_pushInbound g _ _
    have hvf₁ : vertexFields (pushInbound g (id - 1) cid) = vertexFields g :=
      vertexFields_pushInbound g _ _
    rcases ih (by rw [hlen₁]; exact hM)
        (fun k hk1 hk2 => by rw [hvf₁]; exact hvalid k (by omega) (by omega))
      with ⟨g', hrun, hlen, hfields⟩
    have hstep : invertLoop M g i (n + 1) = invertLoop M (pushInbound g (id - 1) cid) (i + 1) n := by
      conv_lhs => rw [invertLoop]
      simp only [hleft, hright, hchk]
    refine ⟨g', by rw [hstep]; exact hrun, by rw [hlen, hlen₁], ?_⟩
    intro j
    obtain ⟨e1, e2, e3, e4⟩ := hfields j
    refine ⟨e1.trans (pushInbound_vertex g _ _ j), e2.trans (pushInbound_visited g _ _ j),
            e3.trans (pushInbound_root_depth g _ _ j), fun hj => ?_⟩
    rw [e4 (by rw [hlen₁]; exact hj), hvf₁, pushesFrom_succ]
    rw [pushInbound_inb g (id - 1) cid j hj]
    have hpl : pushList (vertexFields g) i j = (if id - 1 = j then [cid] else []) := by
      unfold pushList
      rw [map_vertex_getD, hleft, hright]
      have c2 : (some id = some (j + 1)) = (id - 1 = j) := by
        simp only [Option.some.injEq, eq_iff_iff]
        have := hva.2.1
        constructor
        · omega
        · omega
      rw [if_neg (show ¬((none : Option Nat) = some (j + 1)) from fun h => Option.noConfusion h),
        List.nil_append]
      simp only [c2]
    rw [hpl]
    simp only [List.append_assoc]
  | case8 g i n hleft hright ih =>
    intro hM hvalid
    rcases ih hM (fun k hk1 hk2 => hvalid k (by omega) (by omega))
      with ⟨g', hrun, hlen, hfields⟩
    have hstep : invertLoop M g i (n + 1) = invertLoop M g (i + 1) n := by
      conv_lhs => rw [invertLoop]
      simp only [hleft, hright]
    refine ⟨g', by rw [hstep]; exact hrun, hlen, ?_⟩
    intro j
    obtain ⟨e1, e2, e3, e4⟩ := hfields j
    refine ⟨e1, e2, e3, fun hj => ?_⟩
    rw [e4 hj, pushesFrom_succ]
    have hpl : pushList (vertexFields g) i j = [] := by
      unfold pushList
      rw [map_vertex_getD, hleft, hright]
      simp
    rw [hpl, List.nil_append]

theorem left_some_lt (g : List VertexWithStats) {i id : Nat}
    (h : (g.getD i default).vertex.left = some id) : i < g.length := by
  by_contra hge
  rw [List.getD_eq_default g default (by omega)] at h
  exact Option.noConfusion h

theorem right_some_lt (g : List VertexWithStats) {i id : Nat}
    (h : (g.getD i default).vertex.right = some id) : i < g.length := by
  by_contra hge
  rw [List.getD_eq_default g default (by omega)] at h
  exact Option.noConfusion h

theorem declaredRef_pushInbound (g : List VertexWithStats) (idx cid x : Nat)
    (h : declaredRef (pushInbound g idx cid) x) : declaredRef g x := by
  rcases h with ⟨k, hk, hor⟩
  rw [length_pushInbound] at hk
  rw [pushInbound_vertex] at hor
  exact ⟨k, hk, hor⟩

/-- Failure characterisation of the inversion loop: an `InvalidVertexId id`
error names a declared reference exceeding `max_id`, and a
`RootIdUsedAsReference` error means some vertex declares parent ID 0. -/
theorem invertLoop_err (M : Nat) (g : List VertexWithStats) (i n : Nat) :
    ∀ g' e, invertLoop M g i n = (g', .error e) →
      (∃ id, e = .InvalidVertexId id ∧ M < id ∧ declaredRef g id) ∨
      (e = .RootIdUsedAsReference ∧ declaredRef g 0) := by
  induction g, i, n using invertLoop.induct M with
  | case1 g i =>
    intro g' e h
    rw [invertLoop] at h
    exact absurd (congrArg Prod.snd h) (by simp)
  | case2 g i n id hleft e0 hchk =>
    intro g' e h
    have hres : invertLoop M g i (n + 1) = (g, .error e0) := by
      conv_lhs => rw [invertLoop]
      simp only [hleft, hchk]
    rw [hres] at h
    have he : e0 = e := by
      have := congrArg Prod.snd h
      simpa using this
    subst he
    have hdecl : declaredRef g id := ⟨i, left_some_lt g hleft, Or.inl hleft⟩
    rcases check_valid_id_err hchk with ⟨rfl, hlt⟩ | ⟨rfl, rfl⟩
    · exact Or.inl ⟨id, rfl, hlt, hdecl⟩
    · exact Or.inr ⟨rfl, hdecl⟩
  | case3 g i n cid id hleft a hchk1 g₁ id₂ hright e0 hchk2 =>
    intro g' e h
    have hright' : (g.getD i default).vertex.right = some id₂ := by
      rw [← pushInbound_vertex g (id - 1) cid i]
      exact hright
    have hres : invertLoop M g i (n + 1) = (g₁, .error e0) := by
      conv_lhs => rw [invertLoop]
      simp only [hleft, hchk1, hright, hchk2]
    rw [hres] at h
    have he : e0 = e := by
      have := congrArg Prod.snd h
      simpa using this
    subst he
    have hdecl : declaredRef g id₂ := ⟨i, right_some_lt g hright', Or.inr hright'⟩
    rcases check_valid_id_err hchk2 with ⟨rfl, hlt⟩ | ⟨rfl, rfl⟩
    · exact Or.inl ⟨id₂, rfl, hlt, hdecl⟩
    · exact Or.inr ⟨rfl, hdecl⟩
  | case4 g i n cid id hleft a hchk1 g₁ id₂ hright a₂ hchk2 ih =>
    intro g' e h
    have hstep : invertLoop M g i (n + 1) = invertLoop M (pushInbound g₁ (id₂ - 1) cid) (i + 1) n := by
      conv_lhs => rw [invertLoop]
      simp only [hleft, hchk1, hright, hchk2]
    rw [hstep] at h
    rcases ih g' e h with ⟨x, he, hlt, hdecl⟩ | ⟨he, hdecl⟩
    · exact Or.inl ⟨x, he, hlt, declaredRef_pushInbound _ _ _ _ (declaredRef_pushInbound _ _ _ _ hdecl)⟩
    · exact Or.inr ⟨he, declaredRef_pushInbound _ _ _ _ (declaredRef_pushInbound _ _ _ _ hdecl)⟩
  | case5 g i n cid id hleft a hchk1 g₁ hright ih =>
    intro g' e h
    have hstep : invertLoop M g i (n + 1) = invertLoop M g₁ (i + 1) n := by
      conv_lhs => rw [invertLoop]
      simp only [hleft, hchk1, hright]
    rw [hstep] at h
    rcases ih g' e h with ⟨x, he, hlt, hdecl⟩ | ⟨he, hdecl⟩
    · exact Or.inl ⟨x, he, hlt, declaredRef_pushInbound _ _ _ _ hdecl⟩
    · exact Or.inr ⟨he, declaredRef_pushInbound _ _ _ _ hdecl⟩
  | case6 g i n hleft id hright e0 hchk =>
    intro g' e h
    have hres : invertLoop M g i (n + 1) = (g, .error e0) := by
      conv_lhs => rw [invertLoop]
      simp only [hleft, hright, hchk]
    rw [hres] at h
    have he : e0 = e := by
      have := congrArg Prod.snd h
      simpa using this
    subst he
    have hdecl : declaredRef g id := ⟨i, right_some_lt g hright, Or.inr hright⟩
    rcases check_valid_id_err hchk with ⟨rfl, hlt⟩ | ⟨rfl, rfl⟩
    · exact Or.inl ⟨id, rfl, hlt, hdecl⟩
    · exact Or.inr ⟨rfl, hdecl⟩
  | case7 g i n cid hleft id hright a hchk ih =>
    intro g' e h
    have hstep : invertLoop M g i (n + 1) = invertLoop M (pushInbound g (id - 1) cid) (i + 1) n := by
      conv_lhs => rw [invertLoop]
      simp only [hleft, hright, hchk]
    rw [hstep] at h
    rcases ih g' e h with ⟨x, he, hlt, hdecl⟩ | ⟨he, hdecl⟩
    · exact Or.inl ⟨x, he, hlt, declaredRef_pushInbound _ _ _ _ hdecl⟩
    · exact Or.inr ⟨he, declaredRef_pushInbound _ _ _ _ hdecl⟩
  | case8 g i n hleft hright ih =>
    intro g' e h
    have hstep : invertLoop M g i (n + 1) = invertLoop M g (i + 1) n := by
      conv_lhs => rw [invertLoop]
      simp only [hleft, hright]
    rw [hstep] at h
    exact ih g' e h

/-- Success of the inversion loop means every reference it processed was in
range. -/
theorem invertLoop_ok_valid (M : Nat) (g : List VertexWithStats) (i n : Nat) :
    ∀ g', invertLoop M g i n = (g', .ok ()) →
      ∀ k, i ≤ k → k < i + n → ValidRefsAt (vertexFields g) M k := by
  induction g, i, n using invertLoop.induct M with
  | case1 g i =>
    intro g' _ k hk1 hk2
    omega
  | case2 g i n id hleft e0 hchk =>
    intro g' h
    have hres : invertLoop M g i (n + 1) = (g, .error e0) := by
      conv_lhs => rw [invertLoop]
      simp only [hleft, hchk]
    rw [hres] at h
    exact absurd (congrArg Prod.snd h) (by simp)
  | case3 g i n cid id hleft a hchk1 g₁ id₂ hright e0 hchk2 =>
    intro g' h
    have hres : invertLoop M g i (n + 1) = (g₁, .error e0) := by
      conv_lhs => rw [invertLoop]
      simp only [hleft, hchk1, hright, hchk2]
    rw [hres] at h
    exact absurd (congrArg Prod.snd h) (by simp)
  | case4 g i n cid id hleft a hchk1 g₁ id₂ hright a₂ hchk2 ih =>
    intro g' h k hk1 hk2
    have hright' : (g.getD i default).vertex.right = some id₂ := by
      rw [← pushInbound_vertex g (id - 1) cid i]
      exact hright
    have hstep : invertLoop M g i (n + 1) = invertLoop M (pushInbound g₁ (id₂ - 1) cid) (i + 1) n := by
      conv_lhs => rw [invertLoop]
      simp only [hleft, hchk1, hright, hchk2]
    rw [hstep] at h
    have hvf : vertexFields (pushInbound g₁ (id₂ - 1) cid) = vertexFields g := by
      rw [vertexFields_pushInbound, vertexFields_pushInbound]
    by_cases hki : k = i
    · subst hki
      rw [ValidRefsAt, map_vertex_getD, hleft, hright']
      exact ⟨check_valid_id_ok hchk1, check_valid_id_ok hchk2⟩
    · have := ih g' h k (by omega) (by omega)
      rw [hvf] at this
      exact this
  | case5 g i n cid id hleft a hchk1 g₁ hright ih =>
    intro g' h k hk1 hk2
    have hright' : (g.getD i default).vertex.right = none := by
      rw [← pushInbound_vertex g (id - 1) cid i]
      exact hright
    have hstep : invertLoop M g i (n + 1) = invertLoop M g₁ (i + 1) n := by
      conv_lhs => rw [invertLoop]
      simp only [hleft, hchk1, hright]
    rw [hstep] at h
    have hvf : vertexFields g₁ = vertexFields g := vertexFields_pushInbound g _ _
    by_cases hki : k = i
    · subst hki
      rw [ValidRefsAt, map_vertex_getD, hleft, hright']
      exact ⟨check_valid_id_ok hchk1, trivial⟩
    · have := ih g' h k (by omega) (by omega)
      rw [hvf] at this
      exact this
  | case6 g i n hleft id hright e0 hchk =>
    intro g' h
    have hres : invertLoop M g i (n + 1) = (g, .error e0) := by
      conv_lhs => rw [invertLoop]
      simp only [hleft, hright, hchk]
    rw [hres] at h
    exact absurd (congrArg Prod.snd h) (by simp)
  | case7 g i n cid hleft id hright a hchk ih =>
    intro g' h k hk1 hk2
    have hstep : invertLoop M g i (n + 1) = invertLoop M (pushInbound g (id - 1) cid) (i + 1) n := by
      conv_lhs => rw [invertLoop]
      simp only [hleft, hright, hchk]
    rw [hstep] at h
    have hvf : vertexFields (pushInbound g (id - 1) cid) = vertexFields g :=
      vertexFields_pushInbound g _ _
    by_cases hki : k = i
    · subst hki
      rw [ValidRefsAt, map_vertex_getD, hleft, hright]
      exact ⟨trivial, check_valid_id_ok hchk⟩
    · have := ih g' h k (by omega) (by omega)
      rw [hvf] at this
      exact this
  | case8 g i n hleft hright ih =>
    intro g' h k hk1 hk2
    have hstep : invertLoop M g i (n + 1) = invertLoop M g (i + 1) n := by
      conv_lhs => rw [invertLoop]
      simp only [hleft, hright]
    rw [hstep] at h
    by_cases hki : k = i
    · subst hki
      rw [ValidRefsAt, map_vertex_getD, hleft, hright]
      exact ⟨trivial, trivial⟩
    · exact ih g' h k (by omega) (by omega)

theorem inboundRef_set_keep (g : List VertexWithStats) (idx : Nat) (w : VertexWithStats)
    (hinb : w.inbounds = (g.getD idx default).inbounds) (x : Nat)
    (h : inboundRef (g.set idx w) x) : inboundRef g x := by
  rcases h with ⟨k, hk, hmem⟩
  rw [List.length_set] at hk
  rw [inbounds_set_keep g idx w hinb k] at hmem
  exact ⟨k, hk, hmem⟩

/-- Failure characterisation of the BFS loop: an `InvalidVertexId id` error
names an out-of-range ID that was queued or sits in some inbound list, and a
`RootIdUsedAsReference` error means ID 0 was queued or sits in some inbound
list. -/
theorem bfs_err (g : List VertexWithStats) (q : List (Nat × Nat)) :
    ∀ g' e, bfs g q = (g', .error e) →
      (∃ id, e = .InvalidVertexId id ∧ g.length < id ∧
        ((∃ p ∈ q, p.2 = id) ∨ inboundRef g id)) ∨
      (e = .RootIdUsedAsReference ∧ ((∃ p ∈ q, p.2 = 0) ∨ inboundRef g 0)) := by
  induction g, q using bfs.induct with
  | case1 g =>
    intro g' e h
    rw [bfs] at h
    exact absurd (congrArg Prod.snd h) (by simp)
  | case2 g path_len vertex_id rest e0 hchk =>
    intro g' e h
    rw [bfs] at h
    split at h
    · rename_i e1 heq
      rw [hchk] at heq
      have he1 : e0 = e1 := (Except.error.injEq _ _).mp heq
      subst he1
      have he : e0 = e := by
        have := congrArg Prod.snd h
        simpa using this
      subst he
      rcases check_valid_id_err hchk with ⟨rfl, hlt⟩ | ⟨rfl, hz⟩
      · exact Or.inl ⟨vertex_id, rfl, hlt,
          Or.inl ⟨(path_len, vertex_id), List.mem_cons_self _ _, rfl⟩⟩
      · subst hz
        exact Or.inr ⟨rfl, Or.inl ⟨(path_len, 0), List.mem_cons_self _ _, rfl⟩⟩
    · rename_i a heq
      rw [hchk] at heq
      exact Except.noConfusion heq
  | case3 g path_len vertex_id rest a hchk vertex_idx v hv ih =>
    intro g' e h
    rw [bfs] at h
    split at h
    · rename_i e1 heq
      rw [hchk] at heq
      exact Except.noConfusion heq
    · dsimp only at h
      rw [dif_pos hv] at h
      rcases ih g' e h with ⟨id, he, hlt, hsrc⟩ | ⟨he, hsrc⟩
      · refine Or.inl ⟨id, he, hlt, ?_⟩
        rcases hsrc with ⟨p, hp, hpe⟩ | hin
        · exact Or.inl ⟨p, List.mem_cons_of_mem _ hp, hpe⟩
        · exact Or.inr hin
      · refine Or.inr ⟨he, ?_⟩
        rcases hsrc with ⟨p, hp, hpe⟩ | hin
        · exact Or.inl ⟨p, List.mem_cons_of_mem _ hp, hpe⟩
        · exact Or.inr hin
  | case4 g path_len vertex_id rest a hchk vertex_idx v hv v' ih =>
    intro g' e h
    rw [bfs] at h
    split at h
    · rename_i e1 heq
      rw [hchk] at heq
      exact Except.noConfusion heq
    · dsimp only at h
      rw [dif_neg hv] at h
      have hlen : (g.set vertex_idx v').length = g.length := List.length_set _ _ _
      rcases ih g' e h with ⟨id, he, hlt, hsrc⟩ | ⟨he, hsrc⟩
      · refine Or.inl ⟨id, he, by omega, ?_⟩
        rcases hsrc with ⟨p, hp, hpe⟩ | hin
        · rcases List.mem_append.mp hp with hrest | hnew
          · exact Or.inl ⟨p, List.mem_cons_of_mem _ hrest, hpe⟩
          · rcases List.mem_map.mp hnew with ⟨u, hu, rfl⟩
            refine Or.inr ⟨vertex_idx, check_valid_id_sub_lt hchk, ?_⟩
            rw [← hpe]
            exact hu
        · exact Or.inr (inboundRef_set_keep g vertex_idx v' rfl id hin)
      · refine Or.inr ⟨he, ?_⟩
        rcases hsrc with ⟨p, hp, hpe⟩ | hin
        · rcases List.mem_append.mp hp with hrest | hnew
          · exact Or.inl ⟨p, List.mem_cons_of_mem _ hrest, hpe⟩
          · rcases List.mem_map.mp hnew with ⟨u, hu, rfl⟩
            refine Or.inr ⟨vertex_idx, check_valid_id_sub_lt hchk, ?_⟩
            rw [← hpe]
            exact hu
        · exact Or.inr (inboundRef_set_keep g vertex_idx v' rfl 0 hin)

/-- The BFS loop cannot fail when every queued ID and every inbound entry is
in range. -/
theorem bfs_ok_of_valid (g : List VertexWithStats) (q : List (Nat × Nat)) :
    (∀ p ∈ q, 1 ≤ p.2 ∧ p.2 ≤ g.length) →
    (∀ k, k < g.length → ∀ u ∈ (g.getD k default).inbounds, 1 ≤ u ∧ u ≤ g.length) →
    (bfs g q).2 = .ok () := by
  induction g, q using bfs.induct with
  | case1 g =>
    intro _ _
    rw [bfs]
  | case2 g path_len vertex_id rest e0 hchk =>
    intro hq hg
    have := hq (path_len, vertex_id) (List.mem_cons_self _ _)
    rw [check_valid_id_of_bounds this.1 this.2] at hchk
    exact Except.noConfusion hchk
  | case3 g path_len vertex_id rest a hchk vertex_idx v hv ih =>
    intro hq hg
    rw [bfs]
    split
    · rename_i e1 heq
      rw [hchk] at heq
      exact Except.noConfusion heq
    · dsimp only
      rw [dif_pos hv]
      exact ih (fun p hp => hq p (List.mem_cons_of_mem _ hp)) hg
  | case4 g path_len vertex_id rest a hchk vertex_idx v hv v' ih =>
    intro hq hg
    rw [bfs]
    split
    · rename_i e1 heq
      rw [hchk] at heq
      exact Except.noConfusion heq
    · dsimp only
      rw [dif_neg hv]
      have hlen : (g.set vertex_idx v').length = g.length := List.length_set _ _ _
      apply ih
      · intro p hp
        rw [hlen]
        rcases List.mem_append.mp hp with hrest | hnew
        · exact hq p (List.mem_cons_of_mem _ hrest)
        · rcases List.mem_map.mp hnew with ⟨u, hu, rfl⟩
          exact hg vertex_idx (check_valid_id_sub_lt hchk) u hu
      · intro k hk u hu
        rw [hlen] at hk
        rw [inbounds_set_keep g vertex_idx v' rfl k] at hu
        rw [hlen]
        exact hg k hk u hu

theorem vertexFields_ext (g h : List VertexWithStats) (hlen : h.length = g.length)
    (hpt : ∀ j, (h.getD j default).vertex = (g.getD j default).vertex) :
    vertexFields h = vertexFields g := by
  apply List.ext_getElem
  · unfold vertexFields
    rw [List.length_map, List.length_map, hlen]
  · intro i h1 h2
    have hh1 : i < h.length := by
      unfold vertexFields at h1
      rw [List.length_map] at h1
      exact h1
    have hh2 : i < g.length := by
      unfold vertexFields at h2
      rw [List.length_map] at h2
      exact h2
    rw [← List.getD_eq_getElem (vertexFields h) default h1,
      ← List.getD_eq_getElem (vertexFields g) default h2,
      map_vertex_getD, map_vertex_getD, hpt]

theorem length_pos_ne_nil {g : List VertexWithStats} (h : g ≠ []) : 0 < g.length :=
  List.length_pos.mpr h

theorem find_inward_references_eq (g : List VertexWithStats) (hne : g ≠ []) :
    find_inward_references g = invertLoop g.length g 0 g.length := by
  rw [find_inward_references,
    if_neg (by rw [isEmpty_false_of_pos (length_pos_ne_nil hne)]; exact Bool.false_ne_true)]

theorem find_inward_references_ne_nil {g g1 : List VertexWithStats} {r : Except GraphError Unit}
    (h : find_inward_references g = (g1, r)) (hok : r = .ok ()) : g ≠ [] := by
  intro hnil
  subst hnil
  subst hok
  rw [find_inward_references] at h
  exact absurd (congrArg Prod.snd h) (by simp)

/-- C7: on any graph whose inbound lists start empty (as every graph built by
`Graph::new` does), a successful `find_inward_references` followed by a second
call succeeds again and leaves every inbound list exactly twice as long as
after the first call: the operation is not idempotent. -/
theorem C7_invert_not_idempotent (g g1 : List VertexWithStats)
    (hfresh : ∀ v ∈ g, v.inbounds = [])
    (h1 : find_inward_references g = (g1, .ok ())) :
    ∃ g2, find_inward_references g1 = (g2, .ok ()) ∧
      ∀ j, j < g1.length →
        ((g2.getD j default).inbounds).length =
          2 * ((g1.getD j default).inbounds).length := by
  have hne : g ≠ [] := find_inward_references_ne_nil h1 rfl
  rw [find_inward_references_eq g hne] at h1
  have hvalid := invertLoop_ok_valid g.length g 0 g.length g1 h1
  have hvalid0 : ∀ k, k < g.length → ValidRefsAt (vertexFields g) g.length k :=
    fun k hk => hvalid k (Nat.zero_le k) (by omega)
  rcases invertLoop_spec g.length g 0 g.length (Nat.le_refl _)
      (fun k _ hk2 => hvalid0 k (by omega)) with ⟨g1', hrun, hlen, hfields⟩
  rw [h1] at hrun
  have hg1 : g1' = g1 := ((Prod.mk.injEq _ _ _ _).mp hrun.symm).1
  subst hg1
  have hlen1 : g1'.length = g.length := hlen
  have hvf1 : vertexFields g1' = vertexFields g :=
    vertexFields_ext g g1' hlen1 (fun j => (hfields j).1)
  have hinb1 : ∀ j, j < g.length →
      (g1'.getD j default).inbounds = pushesFrom (vertexFields g) 0 g.length j := by
    intro j hj
    rw [(hfields j).2.2.2 hj, hfresh _ (getD_mem g j hj), List.nil_append]
  have hne1 : g1' ≠ [] := by
    intro hnil
    have h0 := length_pos_ne_nil hne
    rw [hnil] at hlen1
    simp only [List.length_nil] at hlen1
    omega
  rcases invertLoop_spec g1'.length g1' 0 g1'.length (Nat.le_refl _)
      (fun k _ hk2 => by
        rw [hvf1, hlen1]
        exact hvalid0 k (by omega)) with ⟨g2, hrun2, hlen2, hfields2⟩
  refine ⟨g2, ?_, ?_⟩
  · rw [find_inward_references_eq g1' hne1, hrun2]
  · intro j hj
    have hj' : j < g.length := by omega
    rw [(hfields2 j).2.2.2 hj, hinb1 j hj', hvf1, hlen1]
    rw [List.length_append]
    omega

/-- C7 witness: on the concrete two-vertex graph, a second inversion succeeds
and doubles every inbound list. -/
theorem C7_witness :
    ∃ g2, find_inward_references exInvG1 = (g2, .ok ()) ∧
      ∀ j, j < exInvG1.length →
        ((g2.getD j default).inbounds).length =
          2 * ((exInvG1.getD j default).inbounds).length :=
  C7_invert_not_idempotent exInvG exInvG1 (by decide) (by rfl)

theorem find_root_depth_eq (g : List VertexWithStats) (hne : g ≠ []) :
    find_root_depth g = bfs g [(0, 1)] := by
  rw [find_root_depth,
    if_neg (by rw [isEmpty_false_of_pos (length_pos_ne_nil hne)]; exact Bool.false_ne_true)]

/-- C4 (amended): for every nonempty graph, `find_inward_references` succeeds
exactly when every declared reference is in range `1..N`; an
`InvalidVertexId id` error it returns names a declared reference with
`id > N`, and a `RootIdUsedAsReference` error means some vertex declares
parent ID 0. `find_root_depth` returns `InvalidVertexId id` only for an
inbound-list entry `id > N`, returns `RootIdUsedAsReference` only when 0
occurs in an inbound list, and succeeds whenever every inbound entry is in
range `1..N`. (Which of two different invalid references decides the error
is fixed by processing order.) -/
theorem C4_id_validation (g : List VertexWithStats) (hne : g ≠ []) :
    (((find_inward_references g).2 = .ok () ↔
        ∀ k, k < g.length → ValidRefsAt (vertexFields g) g.length k) ∧
      (∀ id, (find_inward_references g).2 = .error (.InvalidVertexId id) →
        g.length < id ∧ declaredRef g id) ∧
      ((find_inward_references g).2 = .error .RootIdUsedAsReference →
        declaredRef g 0)) ∧
    ((∀ id, (find_root_depth g).2 = .error (.InvalidVertexId id) →
        g.length < id ∧ inboundRef g id) ∧
      ((find_root_depth g).2 = .error .RootIdUsedAsReference → inboundRef g 0) ∧
      ((∀ k, k < g.length → ∀ u ∈ (g.getD k default).inbounds,
          1 ≤ u ∧ u ≤ g.length) →
        (find_root_depth g).2 = .ok ())) := by
  have h0 := length_pos_ne_nil hne
  constructor
  · rw [find_inward_references_eq g hne]
    rcases hrun : invertLoop g.length g 0 g.length with ⟨g1, r⟩
    refine ⟨?_, ?_, ?_⟩
    · constructor
      · intro hok
        dsimp only at hok
        subst hok
        exact fun k hk => invertLoop_ok_valid g.length g 0 g.length g1 hrun k
          (Nat.zero_le k) (by omega)
      · intro hvalid
        rcases invertLoop_spec g.length g 0 g.length (Nat.le_refl _)
            (fun k _ hk2 => hvalid k (by omega)) with ⟨g1', hrun', _, _⟩
        have hpair : (g1, r) = (g1', Except.ok ()) := by rw [← hrun, hrun']
        injection hpair with h1 h2
    · intro id herr
      dsimp only at herr
      subst herr
      rcases invertLoop_err g.length g 0 g.length g1 _ hrun with
        ⟨x, hx, hlt, hdecl⟩ | ⟨hx, _⟩
      · injection hx with hh
        subst hh
        exact ⟨hlt, hdecl⟩
      · exact absurd hx (by simp)
    · intro herr
      dsimp only at herr
      subst herr
      rcases invertLoop_err g.length g 0 g.length g1 _ hrun with
        ⟨x, hx, _, _⟩ | ⟨_, hdecl⟩
      · exact absurd hx (by simp)
      · exact hdecl
  · rw [find_root_depth_eq g hne]
    rcases hrun : bfs g [(0, 1)] with ⟨g1, r⟩
    refine ⟨?_, ?_, ?_⟩
    · intro id herr
      dsimp only at herr
      subst herr
      rcases bfs_err g [(0, 1)] g1 _ hrun with
        ⟨x, hx, hlt, hsrc⟩ | ⟨hx, _⟩
      · injection hx with hh
        subst hh
        refine ⟨hlt, ?_⟩
        rcases hsrc with ⟨p, hp, hpe⟩ | hin
        · rcases List.mem_singleton.mp hp with rfl
          simp only at hpe
          exfalso
          omega
        · exact hin
      · exact absurd hx (by simp)
    · intro herr
      dsimp only at herr
      subst herr
      rcases bfs_err g [(0, 1)] g1 _ hrun with
        ⟨x, hx, _, _⟩ | ⟨_, hsrc⟩
      · exact absurd hx (by simp)
      · rcases hsrc with ⟨p, hp, hpe⟩ | hin
        · rcases List.mem_singleton.mp hp with rfl
          exact absurd hpe (by simp)
        · exact hin
    · intro hvalid
      have := bfs_ok_of_valid g [(0, 1)]
        (by
          intro p hp
          rcases List.mem_singleton.mp hp with rfl
          exact ⟨Nat.le_refl 1, h0⟩)
        hvalid
      rw [hrun] at this
      exact this

/-- C4 counterexample: one vertex declaring `left = 2` (out of range for a
1-vertex graph) and `right = 0`. The claim as stated demands the
`RootIdUsedAsReference` error (a reference equals 0), but the code reports
the first invalid reference in processing order: `InvalidVertexId 2`. -/
theorem C4_counterexample :
    ((([⟨⟨some 2, some 0, 0⟩, false, [], usizeMax⟩] : List VertexWithStats).getD 0
        default).vertex.right = some 0) ∧
    (find_inward_references [⟨⟨some 2, some 0, 0⟩, false, [], usizeMax⟩]).2 =
      .error (.InvalidVertexId 2) ∧
    (find_inward_references [⟨⟨some 2, some 0, 0⟩, false, [], usizeMax⟩]).2 ≠
      .error .RootIdUsedAsReference := by
  refine ⟨rfl, rfl, ?_⟩
  intro h
  rw [show (find_inward_references [⟨⟨some 2, some 0, 0⟩, false, [], usizeMax⟩]).2 =
      .error (.InvalidVertexId 2) from rfl] at h
  injection h with hh
  exact GraphError.noConfusion hh

/-- C4 witness: the amended validation statement at a concrete one-vertex
graph. -/
theorem C4_witness :
    (((find_inward_references exValid1).2 = .ok () ↔
        ∀ k, k < exValid1.length → ValidRefsAt (vertexFields exValid1) exValid1.length k) ∧
      (∀ id, (find_inward_references exValid1).2 = .error (.InvalidVertexId id) →
        exValid1.length < id ∧ declaredRef exValid1 id) ∧
      ((find_inward_references exValid1).2 = .error .RootIdUsedAsReference →
        declaredRef exValid1 0)) ∧
    ((∀ id, (find_root_depth exValid1).2 = .error (.InvalidVertexId id) →
        exValid1.length < id ∧ inboundRef exValid1 id) ∧
      ((find_root_depth exValid1).2 = .error .RootIdUsedAsReference → inboundRef exValid1 0) ∧
      ((∀ k, k < exValid1.length → ∀ u ∈ (exValid1.getD k default).inbounds,
          1 ≤ u ∧ u ≤ exValid1.length) →
        (find_root_depth exValid1).2 = .ok ())) :=
  C4_id_validation exValid1 (by decide)

/-- A successfully parsed row ends with `left = None` exactly when its
`left` chunk parses to the `id` passed by the loader. -/
theorem from_str_left_none_iff (s : String) (id : Nat) (v : Vertex)
    (h : Vertex.from_str s id = .ok v) :
    (v.left = none ↔ parseUsize ((splitAsciiWhitespace s).getD 0 "") = some id) := by
  unfold Vertex.from_str at h
  dsimp only at h
  split at h
  · exact Except.noConfusion h
  · split at h
    · exact Except.noConfusion h
    · split at h
      · exact Except.noConfusion h
      · rename_i left_id hleft
        split at h
        · exact Except.noConfusion h
        · rename_i right_id hright
          split at h
          · exact Except.noConfusion h
          · rename_i timestamp htime
            injection h with hv
            have hvl : v.left = if left_id = id then none else some left_id := by
              rw [← hv]
            rw [hvl]
            by_cases hid : left_id = id
            · rw [if_pos hid]
              rw [hid] at hleft
              exact ⟨fun _ => hleft, fun _ => rfl⟩
            · rw [if_neg hid]
              constructor
              · intro hcon
                exact Option.noConfusion hcon
              · intro hp
                rw [hp] at hleft
                injection hleft with h2
                exact absurd h2.symm hid

/-- A successfully parsed row ends with `right = None` exactly when its
`right` chunk parses to the `id` passed by the loader. -/
theorem from_str_right_none_iff (s : String) (id : Nat) (v : Vertex)
    (h : Vertex.from_str s id = .ok v) :
    (v.right = none ↔ parseUsize ((splitAsciiWhitespace s).getD 1 "") = some id) := by
  unfold Vertex.from_str at h
  dsimp only at h
  split at h
  · exact Except.noConfusion h
  · split at h
    · exact Except.noConfusion h
    · split at h
      · exact Except.noConfusion h
      · rename_i left_id hleft
        split at h
        · exact Except.noConfusion h
        · rename_i right_id hright
          split at h
          · exact Except.noConfusion h
          · rename_i timestamp htime
            injection h with hv
            have hvr : v.right = if right_id = id then none else some right_id := by
              rw [← hv]
            rw [hvr]
            by_cases hid : right_id = id
            · rw [if_pos hid]
              rw [hid] at hright
              exact ⟨fun _ => hright, fun _ => rfl⟩
            · rw [if_neg hid]
              constructor
              · intro hcon
                exact Option.noConfusion hcon
              · intro hp
                rw [hp] at hright
                injection hright with h2
                exact absurd h2.symm hid

/-- Index view of a successful `try_collect` pass: row `j` (0-based among the
data lines) was parsed with ID `ln + j + 1` and became vertex `j` of the
output. -/
theorem parseRows_get (ss : List String) (ln : Nat) (rows : List Vertex)
    (h : parseRows ss ln = .ok rows) :
    rows.length = ss.length ∧
      ∀ j, j < ss.length →
        Vertex.from_str (ss.getD j "") (ln + j + 1) = .ok (rows.getD j default) := by
  induction ss generalizing ln rows with
  | nil =>
    rw [parseRows] at h
    injection h with hrows
    subst hrows
    exact ⟨rfl, fun j hj => absurd hj (by simp)⟩
  | cons s rest ih =>
    rw [parseRows] at h
    split at h
    · exact Except.noConfusion h
    · rename_i v hv
      split at h
      · exact Except.noConfusion h
      · rename_i vs hvs
        injection h with hrows
        subst hrows
        obtain ⟨hlen, hrec⟩ := ih (ln + 1) vs hvs
        constructor
        · simp [hlen]
        · intro j hj
          cases j with
          | zero =>
            simpa using hv
          | succ k =>
            have hk : k < rest.length := by
              simp only [List.length_cons] at hj
              omega
            have := hrec k hk
            rw [show ln + (k + 1) + 1 = ln + 1 + k + 1 by omega]
            simpa using this

/-- Structure of a successful load: the output is the synthetic root followed
by the parsed rows. -/
theorem load_ok_rows (lines : List String) (vs : List Vertex)
    (h : load_vertices_from_database lines = .ok vs) :
    ∃ rows, parseRows lines.tail 1 = .ok rows ∧ vs = (default : Vertex) :: rows := by
  cases lines with
  | nil =>
    rw [load_vertices_from_database] at h
    exact Except.noConfusion h
  | cons countLine dataLines =>
    rw [load_vertices_from_database] at h
    split at h
    · exact Except.noConfusion h
    · rename_i expected hexp
      split at h
      · exact Except.noConfusion h
      · rename_i rows hrows
        split at h
        · exact Except.noConfusion h
        · injection h with hvs
          exact ⟨rows, hrows, hvs.symm⟩

/-- C3 (amended): in a successfully loaded file, the data row at 0-based
position `j` is parsed with vertex ID `j + 2` (the synthetic root holds ID 1
and the count line shifts the file position by one); the loaded vertex has
`left = None` (respectively `right = None`) exactly when the `left_id`
(`right_id`) chunk parses to that ID — not to the row's 1-based data
position. -/
theorem C3_self_reference_id (lines : List String) (vs : List Vertex) (j : Nat)
    (hload : load_vertices_from_database lines = .ok vs)
    (hj : j < lines.tail.length) :
    ((vs.getD (j + 1) default).left = none ↔
      parseUsize ((splitAsciiWhitespace (lines.tail.getD j "")).getD 0 "") = some (j + 2)) ∧
    ((vs.getD (j + 1) default).right = none ↔
      parseUsize ((splitAsciiWhitespace (lines.tail.getD j "")).getD 1 "") = some (j + 2)) := by
  obtain ⟨rows, hrows, hvs⟩ := load_ok_rows lines vs hload
  obtain ⟨hlen, hrec⟩ := parseRows_get lines.tail 1 rows hrows
  have hfs := hrec j hj
  rw [show 1 + j + 1 = j + 2 by omega] at hfs
  subst hvs
  constructor
  · have h1 := from_str_left_none_iff _ _ _ hfs
    simpa using h1
  · have h2 := from_str_right_none_iff _ _ _ hfs
    simpa using h2

/-- C3 counterexample: the file with declared count 1 and single data row
`"1 0 3"`. The row's `left_id` is 1, its own 1-based position among the data
lines, yet the loaded vertex keeps `left = Some 1`: the claim's self-reference
criterion (the 1-based data position) is off by one. -/
theorem C3_counterexample :
    load_vertices_from_database ["1", "1 0 3"] =
      .ok [⟨none, none, 0⟩, ⟨some 1, some 0, 3⟩] ∧
    ((([⟨none, none, 0⟩, ⟨some 1, some 0, 3⟩] : List Vertex).getD 1 default).left ≠ none) := by
  refine ⟨rfl, ?_⟩
  intro hcon
  exact Option.noConfusion hcon

/-- C3 witness: with data row `"2 0 3"` at position 1 — `left_id = 2`, the
vertex's actual ID — the loaded vertex has `left = None`, and conversely its
`left = None` forces the `left` chunk to parse to that ID. -/
theorem C3_witness :
    (([⟨none, none, 0⟩, ⟨none, some 0, 3⟩] : List Vertex).getD 1 default).left = none ∧
    parseUsize ((splitAsciiWhitespace (["1", "2 0 3"].tail.getD 0 "")).getD 0 "") = some 2 := by
  have h := C3_self_reference_id ["1", "2 0 3"] [⟨none, none, 0⟩, ⟨none, some 0, 3⟩] 0
      (by rfl) (by decide)
  exact ⟨h.1.mpr (by rfl), h.1.mp (by rfl)⟩

/-- C2 counterexample: on the claimed input, `invert` + `label_depths`
(`walk_and_analyze`) does not succeed, so the three claimed averages are
never produced. -/
theorem C2_counterexample :
    load_vertices_from_database exScenarioLines = .ok exScenarioVertices ∧
    (walk_and_analyze (Graph.new exScenarioVertices)).2 ≠ .ok () := by
  refine ⟨rfl, ?_⟩
  intro hcon
  rw [show (walk_and_analyze (Graph.new exScenarioVertices)).2 =
      .error .RootIdUsedAsReference from rfl] at hcon
  exact Except.noConfusion hcon

/-- C2 (amended): the loader maps the scenario rows to vertices with IDs
2, 3, 4, so row 1's `left_id = 0` survives parsing as a real reference, and
`walk_and_analyze` fails with `RootIdUsedAsReference` while inverting it;
no statistics are computed. -/
theorem C2_scenario_errors :
    load_vertices_from_database exScenarioLines = .ok exScenarioVertices ∧
    (walk_and_analyze (Graph.new exScenarioVertices)).2 =
      .error .RootIdUsedAsReference :=
  ⟨rfl, rfl⟩

theorem pairwise_of_total {α : Type} {r : α → α → Prop} (h : ∀ a b, r a b) :
    ∀ l : List α, List.Pairwise r l
  | [] => List.Pairwise.nil
  | a :: l => List.Pairwise.cons (fun b _ => h a b) (pairwise_of_total h l)

/-- Every vertex on a path starting at the root stays in range `1..N`. -/
theorem path_range {E : Nat → List Nat} {N : Nat}
    (hEvalid : ∀ v, 1 ≤ v → v ≤ N → ∀ u ∈ E v, 1 ≤ u ∧ u ≤ N) (hN : 1 ≤ N) :
    ∀ {v m : Nat}, PathTo E 1 v m → 1 ≤ v ∧ v ≤ N := by
  intro v m hp
  induction hp with
  | refl => exact ⟨Nat.le_refl 1, hN⟩
  | step hp hc ih => exact hEvalid _ ih.1 ih.2 _ hc

/-- On any path from the (visited) root to an unvisited vertex there is a
visited vertex with an edge into an unvisited one, reached by a strictly
shorter prefix. -/
theorem bfs_boundary {E : Nat → List Nat} {g : List VertexWithStats}
    (hroot : visitedAt g 1 = true) :
    ∀ {v m : Nat}, PathTo E 1 v m → visitedAt g v = false →
      ∃ w u j, visitedAt g w = true ∧ visitedAt g u = false ∧ u ∈ E w ∧
        PathTo E 1 w j ∧ j < m := by
  intro v m hp
  induction hp with
  | refl =>
    intro hfalse
    rw [hroot] at hfalse
    exact Bool.noConfusion hfalse
  | @step b c n hp hc ih =>
    intro hfalse
    by_cases hb : visitedAt g b = true
    · exact ⟨b, c, n, hb, hfalse, hc, hp, by omega⟩
    · obtain ⟨w, u, j, h1, h2, h3, h4, h5⟩ := ih (by simpa using hb)
      exact ⟨w, u, j, h1, h2, h3, h4, by omega⟩

theorem countVis_zero_of_unvisited (g : List VertexWithStats)
    (h : ∀ j, j < g.length → (g.getD j default).visited = false) : countVis g = 0 := by
  unfold countVis
  rw [List.countP_eq_zero]
  intro v hv
  rcases List.mem_iff_getElem.mp hv with ⟨j, hj, rfl⟩
  have hh := h j hj
  rw [List.getD_eq_getElem g default hj] at hh
  simp [hh]

/-- With an empty queue, every vertex reachable from the root is visited. -/
theorem bfsinv_reachable_visited {N : Nat} {E : Nat → List Nat}
    {g : List VertexWithStats} (inv : BfsInv N E g []) :
    ∀ {v m : Nat}, PathTo E 1 v m → visitedAt g v = true := by
  intro v m hp
  induction hp with
  | refl => exact inv.hroot
  | @step b c n hp hc ih =>
    have hb := path_range inv.hEvalid inv.hN hp
    rcases inv.hsucc b hb.1 hb.2 ih c hc with hvis | habs
    · exact hvis
    · exact absurd habs (List.not_mem_nil _)

/-- The BFS loop preserves `BfsInv` and, on success, ends with an empty
queue. -/
theorem bfs_master (N : Nat) (E : Nat → List Nat) (g : List VertexWithStats)
    (q : List (Nat × Nat)) :
    ∀ g', BfsInv N E g q → bfs g q = (g', .ok ()) → BfsInv N E g' [] := by
  induction g, q using bfs.induct with
  | case1 g =>
    intro g' inv h
    rw [bfs] at h
    injection h with h1 h2
    subst h1
    exact { inv with
      hq_path := fun p hp => absurd hp (List.not_mem_nil p)
      hq_sorted := List.Pairwise.nil
      hq_level := fun p hp => absurd hp (List.not_mem_nil p)
      hq_cnt := fun p hp => absurd hp (List.not_mem_nil p) }
  | case2 g path_len vertex_id rest e0 hchk =>
    intro g' inv h
    rw [bfs] at h
    split at h
    · injection h with h1 h2
      exact absurd h2 (by simp)
    · rename_i a heq
      rw [hchk] at heq
      exact Except.noConfusion heq
  | case3 g path_len vertex_id rest a hchk vertex_idx v hv ih =>
    intro g' inv h
    rw [bfs] at h
    split at h
    · rename_i e heq
      rw [hchk] at heq
      exact Except.noConfusion heq
    · dsimp only at h
      rw [dif_pos hv] at h
      refine ih g' ?_ h
      refine { inv with
        hq_path := fun p hp => inv.hq_path p (List.mem_cons_of_mem _ hp)
        hq_sorted := inv.hq_sorted.of_cons
        hq_level := fun p hp r hr =>
          inv.hq_level p (List.mem_cons_of_mem _ hp) r (List.mem_cons_of_mem _ hr)
        hq_cnt := fun p hp => inv.hq_cnt p (List.mem_cons_of_mem _ hp)
        hsucc := ?_ }
      intro w h1 h2 hwv u hu
      rcases inv.hsucc w h1 h2 hwv u hu with huvis | hmem
      · exact Or.inl huvis
      · rcases List.mem_cons.mp hmem with heq | hrest
        · left
          have hueq : u = vertex_id := congrArg Prod.snd heq
          rw [hueq]
          exact hv
        · exact Or.inr hrest
  | case4 g path_len vertex_id rest a hchk vertex_idx v hv v' ih =>
    intro g' inv h
    rw [bfs] at h
    split at h
    · rename_i e heq
      rw [hchk] at heq
      exact Except.noConfusion heq
    · dsimp only at h
      rw [dif_neg hv] at h
      refine ih g' ?_ h
      -- shared facts
      have hix : vertex_idx = vertex_id - 1 := rfl
      have hval := check_valid_id_ok hchk
      have hvid1 : 1 ≤ vertex_id := hval.1
      have hvidN : vertex_id ≤ N := by rw [← inv.hlen]; exact hval.2
      have hidx : vertex_idx < g.length := check_valid_id_sub_lt hchk
      have hnvis : visitedAt g vertex_id = false := by
        simp only [Bool.not_eq_true] at hv
        exact hv
      have hhead := inv.hq_path (path_len, vertex_id) (List.mem_cons_self _ _)
      have hpathd : PathTo E 1 vertex_id path_len := hhead.2.2
      have hcnthead : path_len ≤ countVis g :=
        inv.hq_cnt (path_len, vertex_id) (List.mem_cons_self _ _)
      have hcntlt : countVis g < g.length :=
        countVis_lt_of_unvisited g vertex_idx hidx (by simp only [Bool.not_eq_true] at hv; exact hv)
      have hplt : path_len < usizeMax := by
        have u1 := inv.hNmax
        have u2 := inv.hlen
        omega
      have hvdMAX : v.root_depth = usizeMax := inv.hunvis vertex_id hvid1 hvidN hnvis
      have hv'vis : v'.visited = true := rfl
      have hv'inb : v'.inbounds = v.inbounds := rfl
      have hv'depth : v'.root_depth = path_len := by
        show (if path_len < v.root_depth then path_len else v.root_depth) = path_len
        rw [hvdMAX, if_pos hplt]
      have hself : (g.set vertex_idx v').getD vertex_idx default = v' :=
        getD_set_self g vertex_idx v' hidx
      have hcount : countVis (g.set vertex_idx v') = countVis g + 1 :=
        countVis_set_true g vertex_idx v' hidx
          (by simp only [Bool.not_eq_true] at hv; exact hv) hv'vis
      have hEvid : inboundsAt g vertex_id = E vertex_id := inv.hE vertex_id hvid1 hvidN
      have hvinbE : v.inbounds = E vertex_id := by
        rw [← hEvid]
        rfl
      have hne_entry : ∀ w, 1 ≤ w → w ≠ vertex_id →
          (g.set vertex_idx v').getD (w - 1) default = g.getD (w - 1) default := by
        intro w hw hne
        refine getD_set_ne g vertex_idx (w - 1) v' ?_
        rw [hix]
        omega
      have hmono : ∀ x, 1 ≤ x → visitedAt g x = true →
          visitedAt (g.set vertex_idx v') x = true := by
        intro x hx hvx
        unfold visitedAt entryAt at hvx ⊢
        by_cases hxe : x = vertex_id
        · subst hxe
          rw [← hix, hself]
        · rw [hne_entry x hx hxe]
          exact hvx
      have hmin : ∀ m, PathTo E 1 vertex_id m → path_len ≤ m := by
        intro m hp
        rcases bfs_boundary inv.hroot hp hnvis with ⟨w, u, j, hwv, huv, huE, hpw, hjm⟩
        have hwr := path_range inv.hEvalid inv.hN hpw
        rcases inv.hsucc w hwr.1 hwr.2 hwv u huE with huvis | hqmem
        · rw [huvis] at huv
          exact Bool.noConfusion huv
        · have hdle : path_len ≤ depthAt g w + 1 := by
            rcases List.mem_cons.mp hqmem with heq | hrest
            · have hfst : depthAt g w + 1 = path_len := congrArg Prod.fst heq
              omega
            · exact (List.pairwise_cons.mp inv.hq_sorted).1 _ hrest
          have hdwj : depthAt g w ≤ j := (inv.hvis w hwr.1 hwr.2 hwv).2 j hpw
          omega
      -- the invariant for the recursive call
      refine {
        hN := inv.hN
        hNmax := inv.hNmax
        hlen := by rw [List.length_set]; exact inv.hlen
        hEvalid := inv.hEvalid
        hroot := hmono 1 (Nat.le_refl 1) inv.hroot
        hE := ?_
        hq_path := ?_
        hq_sorted := ?_
        hq_level := ?_
        hq_cnt := ?_
        hvis := ?_
        hvis_cnt := ?_
        hsucc := ?_
        hunvis := ?_ }
      · -- hE
        intro w h1 h2
        unfold inboundsAt entryAt
        rw [inbounds_set_keep g vertex_idx v' hv'inb (w - 1)]
        exact inv.hE w h1 h2
      · -- hq_path
        intro p hp
        rcases List.mem_append.mp hp with hrest | hnew
        · exact inv.hq_path p (List.mem_cons_of_mem _ hrest)
        · rcases List.mem_map.mp hnew with ⟨u, hu, rfl⟩
          have huE : u ∈ E vertex_id := by
            rw [← hvinbE]
            exact hu
          have hur := inv.hEvalid vertex_id hvid1 hvidN u huE
          exact ⟨hur.1, hur.2, PathTo.step hpathd huE⟩
      · -- hq_sorted
        rw [List.pairwise_append]
        refine ⟨inv.hq_sorted.of_cons, ?_, ?_⟩
        · rw [List.pairwise_map]
          exact pairwise_of_total (fun a b => Nat.le_refl _) _
        · intro p hp r hr
          rcases List.mem_map.mp hr with ⟨u, hu, rfl⟩
          exact inv.hq_level p (List.mem_cons_of_mem _ hp) (path_len, vertex_id)
            (List.mem_cons_self _ _)
      · -- hq_level
        intro p hp r hr
        rcases List.mem_append.mp hp with hp1 | hp1
        · rcases List.mem_append.mp hr with hr1 | hr1
          · exact inv.hq_level p (List.mem_cons_of_mem _ hp1) r (List.mem_cons_of_mem _ hr1)
          · rcases List.mem_map.mp hr1 with ⟨u, hu, rfl⟩
            have := inv.hq_level p (List.mem_cons_of_mem _ hp1) (path_len, vertex_id)
              (List.mem_cons_self _ _)
            simp only at this ⊢
            omega
        · rcases List.mem_map.mp hp1 with ⟨u, hu, rfl⟩
          rcases List.mem_append.mp hr with hr1 | hr1
          · have := (List.pairwise_cons.mp inv.hq_sorted).1 r hr1
            simp only at this ⊢
            omega
          · rcases List.mem_map.mp hr1 with ⟨u2, hu2, rfl⟩
            simp only
            omega
      · -- hq_cnt
        intro p hp
        rw [hcount]
        rcases List.mem_append.mp hp with hp1 | hp1
        · have := inv.hq_cnt p (List.mem_cons_of_mem _ hp1)
          omega
        · rcases List.mem_map.mp hp1 with ⟨u, hu, rfl⟩
          simp only
          omega
      · -- hvis
        intro w h1 h2 hwv
        by_cases hwe : w = vertex_id
        · subst hwe
          have hdw : depthAt (g.set vertex_idx v') w = path_len := by
            unfold depthAt entryAt
            rw [← hix, hself]
            exact hv'depth
          rw [hdw]
          exact ⟨hpathd, hmin⟩
        · have hwv' : visitedAt g w = true := by
            unfold visitedAt entryAt at hwv
            rw [hne_entry w h1 hwe] at hwv
            exact hwv
          have hdw : depthAt (g.set vertex_idx v') w = depthAt g w := by
            unfold depthAt entryAt
            rw [hne_entry w h1 hwe]
          rw [hdw]
          exact inv.hvis w h1 h2 hwv'
      · -- hvis_cnt
        intro w h1 h2 hwv
        rw [hcount]
        by_cases hwe : w = vertex_id
        · subst hwe
          have hdw : depthAt (g.set vertex_idx v') w = path_len := by
            unfold depthAt entryAt
            rw [← hix, hself]
            exact hv'depth
          rw [hdw]
          omega
        · have hwv' : visitedAt g w = true := by
            unfold visitedAt entryAt at hwv
            rw [hne_entry w h1 hwe] at hwv
            exact hwv
          have hdw : depthAt (g.set vertex_idx v') w = depthAt g w := by
            unfold depthAt entryAt
            rw [hne_entry w h1 hwe]
          rw [hdw]
          have := inv.hvis_cnt w h1 h2 hwv'
          omega
      · -- hsucc
        intro w h1 h2 hwv u hu
        by_cases hwe : w = vertex_id
        · subst hwe
          right
          have hdw : depthAt (g.set vertex_idx v') w = path_len := by
            unfold depthAt entryAt
            rw [← hix, hself]
            exact hv'depth
          rw [hdw]
          refine List.mem_append.mpr (Or.inr ?_)
          refine List.mem_map.mpr ⟨u, ?_, rfl⟩
          rw [hvinbE]
          exact hu
        · have hwv' : visitedAt g w = true := by
            unfold visitedAt entryAt at hwv
            rw [hne_entry w h1 hwe] at hwv
            exact hwv
          have hdw : depthAt (g.set vertex_idx v') w = depthAt g w := by
            unfold depthAt entryAt
            rw [hne_entry w h1 hwe]
          rw [hdw]
          have hur := inv.hEvalid w h1 h2 u hu
          rcases inv.hsucc w h1 h2 hwv' u hu with huvis | hqmem
          · exact Or.inl (hmono u hur.1 huvis)
          · rcases List.mem_cons.mp hqmem with heq | hrest
            · left
              have hueq : u = vertex_id := congrArg Prod.snd heq
              subst hueq
              unfold visitedAt entryAt
              rw [← hix, hself]
            · exact Or.inr (List.mem_append.mpr (Or.inl hrest))
      · -- hunvis
        intro w h1 h2 hwuv
        by_cases hwe : w = vertex_id
        · subst hwe
          unfold visitedAt entryAt at hwuv
          rw [← hix, hself] at hwuv
          rw [hv'vis] at hwuv
          exact Bool.noConfusion hwuv
        · have hwuv' : visitedAt g w = false := by
            unfold visitedAt entryAt at hwuv
            rw [hne_entry w h1 hwe] at hwuv
            exact hwuv
          have hdw : depthAt (g.set vertex_idx v') w = depthAt g w := by
            unfold depthAt entryAt
            rw [hne_entry w h1 hwe]
          rw [hdw]
          exact inv.hunvis w h1 h2 hwuv'

theorem new_length (vs : List Vertex) : (Graph.new vs).length = vs.length := by
  unfold Graph.new
  rw [List.length_map]

theorem new_visited (vs : List Vertex) (j : Nat) :
    ((Graph.new vs).getD j default).visited = false := by
  unfold Graph.new
  induction vs generalizing j with
  | nil => rfl
  | cons x xs ih =>
    cases j with
    | zero => rfl
    | succ k => simpa using ih k

theorem new_root_depth (vs : List Vertex) (j : Nat) :
    ((Graph.new vs).getD j default).root_depth = usizeMax := by
  unfold Graph.new
  induction vs generalizing j with
  | nil => rfl
  | cons x xs ih =>
    cases j with
    | zero => rfl
    | succ k => simpa using ih k

theorem new_inbounds (vs : List Vertex) (j : Nat) :
    ((Graph.new vs).getD j default).inbounds = [] := by
  unfold Graph.new
  induction vs generalizing j with
  | nil => rfl
  | cons x xs ih =>
    cases j with
    | zero => rfl
    | succ k => simpa using ih k

theorem pushList_mem (vl : List Vertex) (k j u : Nat) (hu : u ∈ pushList vl k j) :
    u = k + 1 := by
  unfold pushList at hu
  rcases List.mem_append.mp hu with h | h
  · split at h
    · rcases List.mem_singleton.mp h with rfl
      rfl
    · exact absurd h (List.not_mem_nil _)
  · split at h
    · rcases List.mem_singleton.mp h with rfl
      rfl
    · exact absurd h (List.not_mem_nil _)

theorem pushesFrom_mem (vl : List Vertex) (i n j u : Nat)
    (hu : u ∈ pushesFrom vl i n j) : ∃ k, i ≤ k ∧ k < i + n ∧ u = k + 1 := by
  unfold pushesFrom at hu
  rcases List.mem_flatten.mp hu with ⟨l, hl, hul⟩
  rcases List.mem_map.mp hl with ⟨k, hk, rfl⟩
  rcases List.mem_range'_1.mp hk with ⟨hk1, hk2⟩
  exact ⟨k, hk1, hk2, pushList_mem vl k j u hul⟩

theorem new_ne_nil {vs : List Vertex} (hne : vs ≠ []) : Graph.new vs ≠ [] := by
  unfold Graph.new
  simpa using hne

/-- The `BfsInv` invariant holds right after the BFS visits the root of a
fresh graph: root slot replaced by a visited record of depth 0, queue holding
the root's inbound neighbours at level 1. -/
theorem bfsinv_init (N : Nat) (g1 : List VertexWithStats)
    (hN : 1 ≤ N) (hmax : N ≤ usizeMax) (hlen1 : g1.length = N)
    (hfvis : ∀ j, (g1.getD j default).visited = false)
    (hfdep : ∀ j, (g1.getD j default).root_depth = usizeMax)
    (hEval : ∀ w, 1 ≤ w → w ≤ N → ∀ u ∈ inboundsAt g1 w, 1 ≤ u ∧ u ≤ N)
    (W : VertexWithStats) (hWvis : W.visited = true) (hWdep : W.root_depth = 0)
    (hWinb : W.inbounds = (g1.getD 0 default).inbounds) :
    BfsInv N (inboundsAt g1) (g1.set 0 W)
      (List.map (fun id => (1, id)) (g1.getD 0 default).inbounds) := by
  have hidx0 : 0 < g1.length := by omega
  have hself0 : (g1.set 0 W).getD 0 default = W := getD_set_self g1 0 W hidx0
  have hcnt0 : countVis g1 = 0 := countVis_zero_of_unvisited g1 (fun j _ => hfvis j)
  have hcnt1 : countVis (g1.set 0 W) = 1 := by
    rw [countVis_set_true g1 0 W hidx0 (hfvis 0) hWvis, hcnt0]
  have hne_e : ∀ w, 1 ≤ w → w ≠ 1 →
      (g1.set 0 W).getD (w - 1) default = g1.getD (w - 1) default := by
    intro w hw hne2
    exact getD_set_ne g1 0 (w - 1) W (by omega)
  have hdw1 : depthAt (g1.set 0 W) 1 = 0 := by
    unfold depthAt entryAt
    simp only [Nat.sub_self]
    rw [hself0]
    exact hWdep
  refine {
    hN := hN
    hNmax := hmax
    hlen := by rw [List.length_set]; exact hlen1
    hEvalid := hEval
    hE := ?_
    hq_path := ?_
    hq_sorted := ?_
    hq_level := ?_
    hq_cnt := ?_
    hroot := ?_
    hvis := ?_
    hvis_cnt := ?_
    hsucc := ?_
    hunvis := ?_ }
  · intro w h1w h2w
    unfold inboundsAt entryAt
    rw [inbounds_set_keep g1 0 W hWinb (w - 1)]
  · intro p hp
    rcases List.mem_map.mp hp with ⟨u, hu, rfl⟩
    have huE : u ∈ inboundsAt g1 1 := hu
    have hur := hEval 1 (Nat.le_refl 1) hN u huE
    exact ⟨hur.1, hur.2, PathTo.step (PathTo.refl 1) huE⟩
  · rw [List.pairwise_map]
    exact pairwise_of_total (fun a b => Nat.le_refl _) _
  · intro p hp r hr
    rcases List.mem_map.mp hp with ⟨u, hu, rfl⟩
    rcases List.mem_map.mp hr with ⟨u2, hu2, rfl⟩
    simp only
    omega
  · intro p hp
    rcases List.mem_map.mp hp with ⟨u, hu, rfl⟩
    rw [hcnt1]
  · unfold visitedAt entryAt
    simp only [Nat.sub_self]
    rw [hself0]
    exact hWvis
  · intro w h1w h2w hwv
    by_cases hwe : w = 1
    · subst hwe
      rw [hdw1]
      exact ⟨PathTo.refl 1, fun m _ => Nat.zero_le m⟩
    · unfold visitedAt entryAt at hwv
      rw [hne_e w h1w hwe, hfvis (w - 1)] at hwv
      exact Bool.noConfusion hwv
  · intro w h1w h2w hwv
    by_cases hwe : w = 1
    · subst hwe
      rw [hcnt1, hdw1]
      omega
    · unfold visitedAt entryAt at hwv
      rw [hne_e w h1w hwe, hfvis (w - 1)] at hwv
      exact Bool.noConfusion hwv
  · intro w h1w h2w hwv u hu
    by_cases hwe : w = 1
    · subst hwe
      right
      rw [hdw1]
      exact List.mem_map.mpr ⟨u, hu, rfl⟩
    · unfold visitedAt entryAt at hwv
      rw [hne_e w h1w hwe, hfvis (w - 1)] at hwv
      exact Bool.noConfusion hwv
  · intro w h1w h2w hwuv
    by_cases hwe : w = 1
    · subst hwe
      unfold visitedAt entryAt at hwuv
      simp only [Nat.sub_self] at hwuv
      rw [hself0, hWvis] at hwuv
      exact Bool.noConfusion hwuv
    · unfold depthAt entryAt
      rw [hne_e w h1w hwe]
      exact hfdep (w - 1)

/-- C1: on any graph built from a nonempty vertex list, when
`find_inward_references` and then `find_root_depth` both succeed, every
vertex reachable from vertex ID 1 along inbound edges ends visited, with
`root_depth` the length of a shortest inbound-edge path from vertex 1. -/
theorem C1_bfs_shortest_paths (vs : List Vertex) (g1 g2 : List VertexWithStats)
    (hne : vs ≠ []) (hmax : vs.length ≤ usizeMax)
    (h1 : find_inward_references (Graph.new vs) = (g1, .ok ()))
    (h2 : find_root_depth g1 = (g2, .ok ()))
    (v : Nat) (hreach : ∃ n, PathTo (inboundsAt g1) 1 v n) :
    visitedAt g2 v = true ∧ PathTo (inboundsAt g1) 1 v (depthAt g2 v) ∧
      ∀ m, PathTo (inboundsAt g1) 1 v m → depthAt g2 v ≤ m := by
  have hN0 : 0 < vs.length := List.length_pos.mpr hne
  have hne0 : Graph.new vs ≠ [] := new_ne_nil hne
  have hlen0 : (Graph.new vs).length = vs.length := new_length vs
  rw [find_inward_references_eq _ hne0] at h1
  have hvalid := invertLoop_ok_valid _ _ _ _ _ h1
  rcases invertLoop_spec (Graph.new vs).length (Graph.new vs) 0 (Graph.new vs).length
      (Nat.le_refl _) (fun k hk1 hk2 => hvalid k hk1 hk2) with ⟨g1', hrun, hlen, hfields⟩
  rw [h1] at hrun
  injection hrun with hg1 _
  subst hg1
  have hlen1 : g1.length = vs.length := by rw [hlen, hlen0]
  have hfvis : ∀ j, (g1.getD j default).visited = false :=
    fun j => ((hfields j).2.1).trans (new_visited vs j)
  have hfdep : ∀ j, (g1.getD j default).root_depth = usizeMax :=
    fun j => ((hfields j).2.2.1).trans (new_root_depth vs j)
  have hinb : ∀ j, j < vs.length →
      (g1.getD j default).inbounds =
        pushesFrom (vertexFields (Graph.new vs)) 0 (Graph.new vs).length j := by
    intro j hj
    rw [(hfields j).2.2.2 (by omega), new_inbounds vs j, List.nil_append]
  have hEval : ∀ w, 1 ≤ w → w ≤ vs.length →
      ∀ u ∈ inboundsAt g1 w, 1 ≤ u ∧ u ≤ vs.length := by
    intro w hw1 hw2 u hu
    unfold inboundsAt entryAt at hu
    rw [hinb (w - 1) (by omega)] at hu
    rcases pushesFrom_mem _ _ _ _ _ hu with ⟨k, _, hk2, rfl⟩
    rw [hlen0] at hk2
    omega
  have hne1 : g1 ≠ [] := by
    intro hnil
    rw [hnil] at hlen1
    simp only [List.length_nil] at hlen1
    omega
  rw [find_root_depth_eq g1 hne1] at h2
  rw [bfs] at h2
  split at h2
  · rename_i e heq
    rw [check_valid_id_of_bounds (Nat.le_refl 1) (by omega)] at heq
    exact Except.noConfusion heq
  · dsimp only at h2
    simp only [Nat.sub_self] at h2
    rw [dif_neg (by rw [hfvis 0]; exact Bool.false_ne_true)] at h2
    simp only [hfdep 0] at h2
    rw [if_pos (by norm_num [usizeMax])] at h2
    simp only [List.nil_append, Nat.zero_add] at h2
    have hinv := bfsinv_init vs.length g1 (by omega) hmax hlen1 hfvis hfdep hEval
      { vertex := (g1.getD 0 default).vertex, visited := true,
        inbounds := (g1.getD 0 default).inbounds, root_depth := 0 } rfl rfl rfl
    have hfin := bfs_master vs.length (inboundsAt g1) _ _ g2 hinv h2
    rcases hreach with ⟨n, hp⟩
    have hrange := path_range hfin.hEvalid hfin.hN hp
    have hv2 := bfsinv_reachable_visited hfin hp
    exact ⟨hv2, (hfin.hvis v hrange.1 hrange.2 hv2).1,
      (hfin.hvis v hrange.1 hrange.2 hv2).2⟩

theorem exInv_run2 : find_root_depth exInvG1 = (exInvRes, .ok ()) := by
  unfold exInvG1 exInvRes
  rw [find_root_depth]
  norm_num
  rw [bfs]
  norm_num [check_valid_id, usizeMax]
  rw [bfs]
  norm_num [check_valid_id, usizeMax]
  rw [bfs]
  rfl

/-- C1 witness: in the concrete two-vertex graph, vertex 2 (which references
vertex 1) ends visited with `root_depth` a shortest path length. -/
theorem C1_witness :
    visitedAt exInvRes 2 = true ∧ PathTo (inboundsAt exInvG1) 1 2 (depthAt exInvRes 2) ∧
      ∀ m, PathTo (inboundsAt exInvG1) 1 2 m → depthAt exInvRes 2 ≤ m :=
  C1_bfs_shortest_paths [⟨none, none, 0⟩, ⟨some 1, none, 0⟩] exInvG1 exInvRes
    (by decide) (by decide) (by rfl) exInv_run2 2
    ⟨1, PathTo.step (PathTo.refl 1) (by decide)⟩

end Ledger
